import Mathlib

/-!
# Verification of the andi core (EvolBioInf/andi)

This file gives a shallow embedding, in Lean 4, of the core data structures
and algorithms of the `andi` program — the mutation-count matrix and its
distance estimators (`src/model.h`, `src/model.c`), the shustring threshold
computation (`src/sequence.c`, `src/process.c`), the enhanced suffix array
and its match engine (`src/esa.c`), and the anchor-based divergence
estimator (`src/process.c`) — together with theorems settling the claims
of the specification against that embedding.

Machine integers (`size_t`, `saidx_t`, `unsigned int`) are embedded as
`ℕ`/`ℤ`; the inputs of interest stay far below the 32/64-bit bounds the
code documents (`(INT_MAX-1)/2`), so no wrap-around is modelled.  IEEE-754
`double` values are idealised as exact real numbers extended with the three
special values `+∞`, `-∞` and `NaN` (type `Dbl` below): arithmetic follows
the IEEE special-value rules, but rounding and the sign of zero are not
modelled.  C strings are embedded as `List Char`; a read beyond the end of
a buffer yields the terminating `'\x00'` byte, matching the NUL-terminated
buffers the code manipulates.
-/

set_option maxHeartbeats 1000000
set_option linter.constructorNameAsVariable false

namespace Andi

/-! ## The mutation matrix (src/model.h)

The enum of mutation cells.  `counts` is the array `unsigned int
counts[MUTCOUNTS]`, embedded as a function from cell index to count; only
indices `0..15` are ever used. -/

def MUTCOUNTS : ℕ := 16

def AtoA : ℕ := 0
def AtoC : ℕ := 1
def AtoG : ℕ := 2
def AtoT : ℕ := 3
def CtoA : ℕ := 4
def CtoC : ℕ := 5
def CtoG : ℕ := 6
def CtoT : ℕ := 7
def GtoA : ℕ := 8
def GtoC : ℕ := 9
def GtoG : ℕ := 10
def GtoT : ℕ := 11
def TtoA : ℕ := 12
def TtoC : ℕ := 13
def TtoG : ℕ := 14
def TtoT : ℕ := 15

/-- The `model` struct of src/model.h: mutation-type counts plus the query
length. -/
structure Model where
  counts : ℕ → ℕ
  seq_len : ℕ

/-- `model_sum_types` / the `model_sum` macro of src/model.c: sum the counts
of the listed mutation cells. -/
def model_sum (MM : Model) (summands : List ℕ) : ℕ :=
  (summands.map fun i => MM.counts i).sum

/-- `model_total` of src/model.c: total number of nucleotides in the
pairwise alignment, i.e. the sum of all sixteen cells. -/
def model_total (MM : Model) : ℕ :=
  ∑ i ∈ Finset.range MUTCOUNTS, MM.counts i

/-! ## Signed `char` arithmetic

The C code compares `char` values, which are signed bytes on the target
platforms.  `sval` is the signed value of a byte. -/

/-- The value of a character as a signed C `char` (bytes `128..255` are
negative). -/
def sval (c : Char) : ℤ :=
  if c.toNat % 256 < 128 then ((c.toNat % 256 : ℕ) : ℤ) else ((c.toNat % 256 : ℕ) : ℤ) - 256

/-- `nucl2bit` of src/model.c: map a nucleotide character to its 2-bit code
via `c &= 6; c ^= c >> 1; return c >> 1` (A→0, C→1, G→2, T→3). -/
def nucl2bit (c : Char) : ℕ :=
  let x := c.toNat &&& 6
  let y := x ^^^ (x >>> 1)
  y >>> 1

/-- The cell index computed inside `model_count` of src/model.c:
`base = (0xc840 >> (4*foo)) & 0xf;  index = base + (foo >= baz ? foo - baz : baz)`
where `foo`/`baz` are the 2-bit codes of the subject and query byte. -/
def mutIndex (s q : Char) : ℕ :=
  let foo := nucl2bit s
  let baz := nucl2bit q
  let base := (0xc840 >>> (4 * foo)) &&& 0xf
  base + (if baz ≤ foo then foo - baz else baz)

/-- The per-position accumulation of `model_count` (src/model.c): skip the
position when either byte is a special character (`< 'A'` as a signed
char), otherwise increment the cell `mutIndex s q` of the local counts. -/
def model_count_step (cnt : ℕ → ℕ) (s q : Char) : ℕ → ℕ :=
  if sval s < 65 ∨ sval q < 65 then cnt
  else Function.update cnt (mutIndex s q) (cnt (mutIndex s q) + 1)

/-- The `local_counts` array built by the loop of `model_count`
(src/model.c) over positions `0..len`. -/
def model_count_local (S Q : List Char) : ℕ → (ℕ → ℕ)
  | 0 => fun _ => 0
  | len + 1 => model_count_step (model_count_local S Q len)
      (S.getD len '\x00') (Q.getD len '\x00')

/-- `model_count` of src/model.c: count substitutions of the alignment of
`S[0..len)` against `Q[0..len)` and add them to the matrix. -/
def model_count (MM : Model) (S Q : List Char) (len : ℕ) : Model :=
  { MM with counts := fun i => MM.counts i + model_count_local S Q len i }

/-- The evolutionary-model selector, enum `{ M_RAW, M_JC, M_KIMURA,
M_LOGDET, M_ANI }` of src/global.h (global variable `MODEL`, here passed
explicitly). -/
inductive EvoModel where
  | M_RAW | M_JC | M_KIMURA | M_LOGDET | M_ANI
deriving DecidableEq

export EvoModel (M_RAW M_JC M_KIMURA M_LOGDET M_ANI)

/-- The `local_counts[4]` array of the fall-back branch of
`model_count_equal` (src/model.c): classify each byte `s ≥ 'A'` of
`S[0..len)` by `(s >> 1) & 3` and count it; skip bytes `< 'A'`. -/
def equal_local_counts (S : List Char) : ℕ → (ℕ → ℕ)
  | 0 => fun _ => 0
  | len + 1 =>
    let cnt := equal_local_counts S len
    let s := S.getD len '\x00'
    if sval s < 65 then cnt
    else Function.update cnt ((s.toNat >>> 1) &&& 3) (cnt ((s.toNat >>> 1) &&& 3) + 1)

/-- `model_count_equal` of src/model.c.  For the models `M_RAW`, `M_JC` and
`M_KIMURA` the code assumes an equal distribution of nucleotides: it adds
`len/4` to each diagonal cell and the remainder `len & 3` to `TtoT`.  For
other models it falls back to per-character counting via
`equal_local_counts`, adding `local[0]` to `AtoA`, `local[1]` to `CtoC`,
`local[3]` to `GtoG` and `local[2]` to `TtoT`. -/
def model_count_equal (mdl : EvoModel) (MM : Model) (S : List Char) (len : ℕ) : Model :=
  if mdl = M_RAW ∨ mdl = M_JC ∨ mdl = M_KIMURA then
    let fourth := len / 4
    { MM with counts := fun i =>
        if i = AtoA then MM.counts i + fourth
        else if i = CtoC then MM.counts i + fourth
        else if i = GtoG then MM.counts i + fourth
        else if i = TtoT then MM.counts i + (fourth + (len &&& 3))
        else MM.counts i }
  else
    let lc := equal_local_counts S len
    { MM with counts := fun i =>
        if i = AtoA then MM.counts i + lc 0
        else if i = CtoC then MM.counts i + lc 1
        else if i = GtoG then MM.counts i + lc 3
        else if i = TtoT then MM.counts i + lc 2
        else MM.counts i }

/-! ## Idealised IEEE-754 doubles

`Dbl` is an exact real number together with the special values `+∞`, `-∞`
and `NaN`.  The operations follow the IEEE-754 special-value rules used by
the estimator code (`∞ - ∞ = NaN`, `0/0 = NaN`, `x/0 = ±∞`, `log 0 = -∞`,
`log` of a negative number `= NaN`, every operation propagates `NaN`, and
every comparison with `NaN` is false).  Rounding and negative zero are not
modelled. -/

inductive Dbl where
  | nan : Dbl
  | pinf : Dbl
  | ninf : Dbl
  | fin : ℝ → Dbl

namespace Dbl

/-- IEEE negation. -/
def dneg : Dbl → Dbl
  | nan => nan
  | pinf => ninf
  | ninf => pinf
  | fin x => fin (-x)

/-- IEEE addition. -/
def dadd : Dbl → Dbl → Dbl
  | nan, _ => nan
  | _, nan => nan
  | pinf, ninf => nan
  | ninf, pinf => nan
  | pinf, _ => pinf
  | ninf, _ => ninf
  | _, pinf => pinf
  | _, ninf => ninf
  | fin x, fin y => fin (x + y)

/-- IEEE subtraction. -/
def dsub (a b : Dbl) : Dbl := dadd a (dneg b)

/-- IEEE multiplication. -/
noncomputable def dmul : Dbl → Dbl → Dbl
  | nan, _ => nan
  | _, nan => nan
  | pinf, pinf => pinf
  | pinf, ninf => ninf
  | ninf, pinf => ninf
  | ninf, ninf => pinf
  | pinf, fin y => if y < 0 then ninf else if y = 0 then nan else pinf
  | ninf, fin y => if y < 0 then pinf else if y = 0 then nan else ninf
  | fin x, pinf => if x < 0 then ninf else if x = 0 then nan else pinf
  | fin x, ninf => if x < 0 then pinf else if x = 0 then nan else ninf
  | fin x, fin y => fin (x * y)

/-- IEEE division (the sign of zero is not modelled: a finite numerator
over a zero denominator follows the numerator's sign). -/
noncomputable def ddiv : Dbl → Dbl → Dbl
  | nan, _ => nan
  | _, nan => nan
  | pinf, pinf => nan
  | pinf, ninf => nan
  | ninf, pinf => nan
  | ninf, ninf => nan
  | pinf, fin y => if y < 0 then ninf else pinf
  | ninf, fin y => if y < 0 then pinf else ninf
  | fin _, pinf => fin 0
  | fin _, ninf => fin 0
  | fin x, fin y =>
    if y = 0 then (if x = 0 then nan else if x < 0 then ninf else pinf)
    else fin (x / y)

/-- C `log` under IEEE semantics, idealised with the exact `Real.log` on
positive arguments. -/
noncomputable def dlog : Dbl → Dbl
  | nan => nan
  | pinf => pinf
  | ninf => nan
  | fin x => if x < 0 then nan else if x = 0 then ninf else fin (Real.log x)

/-- The IEEE `<=` relation (false whenever either side is `NaN`). -/
def dle : Dbl → Dbl → Prop
  | nan, _ => False
  | _, nan => False
  | ninf, _ => True
  | _, ninf => False
  | _, pinf => True
  | pinf, fin _ => False
  | fin x, fin y => x ≤ y

/-- The IEEE `<` relation (false whenever either side is `NaN`). -/
def dlt : Dbl → Dbl → Prop
  | nan, _ => False
  | _, nan => False
  | ninf, ninf => False
  | ninf, _ => True
  | _, ninf => False
  | pinf, _ => False
  | fin _, pinf => True
  | fin x, fin y => x < y

/-- The final clamp `dist <= 0.0 ? 0.0 : dist` of the estimators
("fix negative zero"): by the IEEE comparison rules it maps `-∞` and
non-positive finite values to `0` and leaves `NaN`, `+∞` and positive
finite values unchanged. -/
noncomputable def dclamp : Dbl → Dbl
  | nan => nan
  | pinf => pinf
  | ninf => fin 0
  | fin x => if x ≤ 0 then fin 0 else fin x

/-- Conversion of an unsigned integer to `double`. -/
def ofNat (n : ℕ) : Dbl := fin n

end Dbl

open Dbl

/-- `estimate_RAW` of src/model.c: `NaN` when the total count is at most 3,
otherwise the quotient of the twelve off-diagonal cells by the total. -/
noncomputable def estimate_RAW (MM : Model) : Dbl :=
  let nucl := model_total MM
  let SNPs := model_sum MM [AtoC, AtoG, AtoT, CtoA, CtoG, CtoT, GtoA, GtoC,
    GtoT, TtoA, TtoC, TtoG]
  if nucl ≤ 3 then Dbl.nan else ddiv (Dbl.ofNat SNPs) (Dbl.ofNat nucl)

/-- `estimate_JC` of src/model.c: the Jukes-Cantor correction
`-0.75 * log(1 - (4/3) * raw)` followed by the non-positive clamp. -/
noncomputable def estimate_JC (MM : Model) : Dbl :=
  let dist := estimate_RAW MM
  let dist' := dmul (fin (-(3/4 : ℝ)))
    (dlog (dsub (fin 1) (dmul (fin ((4 : ℝ)/3)) dist)))
  dclamp dist'

/-- `estimate_KIMURA` of src/model.c: the K80 distance
`-0.25 * log((1 - 2Q) * (1 - 2P - Q)^2)` followed by the clamp. -/
noncomputable def estimate_KIMURA (MM : Model) : Dbl :=
  let nucl := model_total MM
  let transitions := model_sum MM [AtoG, GtoA, CtoT, TtoC]
  let transversions := model_sum MM [AtoC, CtoA, AtoT, TtoA, GtoC, CtoG, GtoT, TtoG]
  let P := ddiv (Dbl.ofNat transitions) (Dbl.ofNat nucl)
  let Q := ddiv (Dbl.ofNat transversions) (Dbl.ofNat nucl)
  let tmp := dsub (dsub (fin 1) (dmul (fin 2) P)) Q
  let dist := dmul (fin (-(1/4 : ℝ)))
    (dlog (dmul (dmul (dsub (fin 1) (dmul (fin 2) Q)) tmp) tmp))
  dclamp dist

/-- `estimate_LOGDET` of src/model.c: the LogDet distance computed from the
row sums, column sums and the hand-written 4×4 determinant of the
site-pattern frequency matrix. -/
noncomputable def estimate_LOGDET (MM : Model) : Dbl :=
  let nucl : Dbl := Dbl.ofNat (model_total MM)
  let M : ℕ → Dbl := fun i => ddiv (Dbl.ofNat (MM.counts i)) nucl
  let rsum : List ℕ → Dbl := fun l => ddiv (Dbl.ofNat (model_sum MM l)) nucl
  let logDetFxxFyy :=
    dadd (dadd (dadd (dadd (dadd (dadd (dadd
      (dlog (rsum [AtoA, AtoC, AtoG, AtoT]))
      (dlog (rsum [CtoA, CtoC, CtoG, CtoT])))
      (dlog (rsum [GtoA, GtoC, GtoG, GtoT])))
      (dlog (rsum [TtoA, TtoC, TtoG, TtoT])))
      (dlog (rsum [AtoA, CtoA, GtoA, TtoA])))
      (dlog (rsum [AtoC, CtoC, GtoC, TtoC])))
      (dlog (rsum [AtoG, CtoG, GtoG, TtoG])))
      (dlog (rsum [AtoT, CtoT, GtoT, TtoT]))
  let detFxy :=
    dsub (dadd (dsub (dadd (dsub (dadd (dsub (dadd (dsub (dadd (dsub
      (dmul (dmul (M AtoA) (M CtoC)) (dsub (dmul (M GtoG) (M TtoT)) (dmul (M TtoG) (M GtoT))))
      (dmul (dmul (M AtoA) (M CtoG)) (dsub (dmul (M GtoC) (M TtoT)) (dmul (M TtoC) (M GtoT)))))
      (dmul (dmul (M AtoA) (M CtoT)) (dsub (dmul (M GtoC) (M TtoG)) (dmul (M TtoC) (M GtoG)))))
      (dmul (dmul (M AtoC) (M CtoA)) (dsub (dmul (M GtoG) (M TtoT)) (dmul (M TtoG) (M GtoT)))))
      (dmul (dmul (M AtoC) (M CtoG)) (dsub (dmul (M GtoA) (M TtoT)) (dmul (M TtoA) (M GtoT)))))
      (dmul (dmul (M AtoC) (M CtoT)) (dsub (dmul (M GtoA) (M TtoG)) (dmul (M TtoA) (M GtoG)))))
      (dmul (dmul (M AtoG) (M CtoA)) (dsub (dmul (M GtoC) (M TtoT)) (dmul (M TtoC) (M GtoT)))))
      (dmul (dmul (M AtoG) (M CtoC)) (dsub (dmul (M GtoA) (M TtoT)) (dmul (M TtoA) (M GtoT)))))
      (dmul (dmul (M AtoG) (M CtoT)) (dsub (dmul (M GtoA) (M TtoC)) (dmul (M TtoA) (M GtoC)))))
      (dmul (dmul (M AtoT) (M CtoA)) (dsub (dmul (M GtoC) (M TtoG)) (dmul (M TtoC) (M GtoG)))))
      (dmul (dmul (M AtoT) (M CtoC)) (dsub (dmul (M GtoA) (M TtoG)) (dmul (M TtoA) (M GtoG)))))
      (dmul (dmul (M AtoT) (M CtoG)) (dsub (dmul (M GtoA) (M TtoC)) (dmul (M TtoA) (M GtoC))))
  let dist := dmul (fin (-(1/4 : ℝ)))
    (dsub (dlog detFxy) (dmul (fin ((1:ℝ)/2)) logDetFxxFyy))
  dclamp dist

/-! ## Evaluation lemmas for `Dbl` -/

namespace Dbl

@[simp] theorem dneg_fin (x : ℝ) : dneg (fin x) = fin (-x) := rfl
@[simp] theorem dneg_nan : dneg nan = nan := rfl
@[simp] theorem dneg_ninf : dneg ninf = pinf := rfl
@[simp] theorem dneg_pinf : dneg pinf = ninf := rfl

@[simp] theorem dadd_fin_fin (x y : ℝ) : dadd (fin x) (fin y) = fin (x + y) := rfl
@[simp] theorem dadd_fin_nan (x : ℝ) : dadd (fin x) nan = nan := rfl
@[simp] theorem dadd_nan (a : Dbl) : dadd nan a = nan := by cases a <;> rfl
@[simp] theorem dadd_fin_ninf (x : ℝ) : dadd (fin x) ninf = ninf := rfl
@[simp] theorem dadd_fin_pinf (x : ℝ) : dadd (fin x) pinf = pinf := rfl
@[simp] theorem dadd_ninf_fin (x : ℝ) : dadd ninf (fin x) = ninf := rfl
@[simp] theorem dadd_ninf_ninf : dadd ninf ninf = ninf := rfl
@[simp] theorem dadd_ninf_pinf : dadd ninf pinf = nan := rfl
@[simp] theorem dadd_ninf_nan : dadd ninf nan = nan := rfl

@[simp] theorem dsub_fin_fin (x y : ℝ) : dsub (fin x) (fin y) = fin (x - y) := by
  show fin (x + -y) = fin (x - y)
  ring_nf

@[simp] theorem dsub_fin_nan (x : ℝ) : dsub (fin x) nan = nan := rfl
@[simp] theorem dsub_ninf_ninf : dsub ninf ninf = nan := rfl
@[simp] theorem dsub_ninf_fin (x : ℝ) : dsub ninf (fin x) = ninf := rfl

@[simp] theorem dmul_nan (a : Dbl) : dmul nan a = nan := by cases a <;> rfl
@[simp] theorem dmul_fin_nan (x : ℝ) : dmul (fin x) nan = nan := rfl
@[simp] theorem dmul_fin_fin (x y : ℝ) : dmul (fin x) (fin y) = fin (x * y) := rfl

theorem dmul_fin_ninf_pos {x : ℝ} (h : 0 < x) : dmul (fin x) ninf = ninf := by
  show (if x < 0 then pinf else if x = 0 then nan else ninf) = ninf
  rw [if_neg (not_lt.2 h.le), if_neg h.ne']

@[simp] theorem ddiv_fin_nan (x : ℝ) : ddiv (fin x) nan = nan := rfl

theorem ddiv_fin_fin {x y : ℝ} (h : y ≠ 0) : ddiv (fin x) (fin y) = fin (x / y) := by
  show (if y = 0 then _ else fin (x / y)) = fin (x / y)
  rw [if_neg h]

@[simp] theorem dlog_nan : dlog nan = nan := rfl
@[simp] theorem dlog_ninf : dlog ninf = nan := rfl

@[simp] theorem dlog_fin_zero : dlog (fin 0) = ninf := by
  show (if (0:ℝ) < 0 then nan else if (0:ℝ) = 0 then ninf else _) = ninf
  norm_num

theorem dlog_fin_pos {x : ℝ} (h : 0 < x) : dlog (fin x) = fin (Real.log x) := by
  show (if x < 0 then nan else if x = 0 then ninf else fin (Real.log x)) = _
  rw [if_neg (not_lt.2 h.le), if_neg h.ne']

@[simp] theorem dlog_fin_one : dlog (fin 1) = fin 0 := by
  rw [dlog_fin_pos one_pos, Real.log_one]

@[simp] theorem dclamp_nan : dclamp nan = nan := rfl
@[simp] theorem dclamp_ninf : dclamp ninf = fin 0 := rfl

theorem dclamp_fin_nonpos {x : ℝ} (h : x ≤ 0) : dclamp (fin x) = fin 0 := by
  show (if x ≤ 0 then fin 0 else fin x) = fin 0
  rw [if_pos h]

theorem dclamp_fin_pos {x : ℝ} (h : 0 < x) : dclamp (fin x) = fin x := by
  show (if x ≤ 0 then fin 0 else fin x) = fin x
  rw [if_neg (not_le.2 h)]

@[simp] theorem fin_ne_nan (x : ℝ) : fin x ≠ nan := by intro h; cases h
@[simp] theorem nan_ne_fin (x : ℝ) : nan ≠ fin x := by intro h; cases h
@[simp] theorem fin_inj {x y : ℝ} : fin x = fin y ↔ x = y :=
  ⟨fun h => by cases h; rfl, fun h => by rw [h]⟩

@[simp] theorem dle_fin_fin (x y : ℝ) : dle (fin x) (fin y) ↔ x ≤ y := Iff.rfl
@[simp] theorem dlt_fin_fin (x y : ℝ) : dlt (fin x) (fin y) ↔ x < y := Iff.rfl
@[simp] theorem not_dle_nan_left (a : Dbl) : ¬ dle nan a := by cases a <;> exact fun h => h
@[simp] theorem not_dlt_nan_left (a : Dbl) : ¬ dlt nan a := by cases a <;> exact fun h => h

theorem not_dle_nan_right (a : Dbl) : ¬ dle a nan := by cases a <;> exact fun h => h
theorem not_dlt_nan_right (a : Dbl) : ¬ dlt a nan := by cases a <;> exact fun h => h

end Dbl

/-! ## Helper facts about the estimators -/

/-- The twelve off-diagonal cells summed by `estimate_RAW`. -/
def offDiagCells : List ℕ :=
  [AtoC, AtoG, AtoT, CtoA, CtoG, CtoT, GtoA, GtoC, GtoT, TtoA, TtoC, TtoG]


/-- `estimate_RAW` is `NaN` exactly on totals `≤ 3`, and otherwise the
off-diagonal fraction; convenient unfolding lemmas. -/
theorem estimate_RAW_of_le {MM : Model} (h : model_total MM ≤ 3) :
    estimate_RAW MM = Dbl.nan := by
  unfold estimate_RAW
  rw [if_pos h]

theorem estimate_RAW_of_gt {MM : Model} (h : 3 < model_total MM) :
    estimate_RAW MM =
      Dbl.fin ((model_sum MM offDiagCells : ℝ) / (model_total MM : ℝ)) := by
  unfold estimate_RAW offDiagCells
  rw [if_neg (by omega)]
  exact Dbl.ddiv_fin_fin (by exact_mod_cast (by omega : model_total MM ≠ 0))

/-- Every non-`NaN` value of `estimate_RAW` is a finite quotient in `[0,1]`. -/
theorem estimate_RAW_cases (MM : Model) :
    estimate_RAW MM = Dbl.nan ∨
      ∃ r : ℝ, estimate_RAW MM = Dbl.fin r ∧ 0 ≤ r := by
  rcases le_or_lt (model_total MM) 3 with h | h
  · exact Or.inl (estimate_RAW_of_le h)
  · refine Or.inr ⟨_, estimate_RAW_of_gt h, ?_⟩
    positivity

/-- The all-zero mutation matrix `{0}` with `seq_len = 0`. -/
def zeroModel : Model := ⟨fun _ => 0, 0⟩

/-- Modelled from the spec: the canonical diagonal identity matrix
`seq_len = 9, counts[AtoA] = 9` that the pairwise driver places on the
diagonal `M(i,i)` (spec §4.7 and §9; the driver revision holding this
literal is not part of the sources, whose `dist_hack.h` is an older
revision). -/
def diagModel : Model := ⟨fun i => if i = AtoA then 9 else 0, 9⟩

/-- C8: `estimate_RAW(MM)` returns NaN exactly when the aligned length
`N = model_total MM` is at most 3, and otherwise returns the quotient of
the sum of the twelve off-diagonal counts by `N`. -/
theorem C8_estimate_RAW_spec (MM : Model) :
    (estimate_RAW MM = Dbl.nan ↔ model_total MM ≤ 3) ∧
    (3 < model_total MM →
      estimate_RAW MM =
        Dbl.fin ((model_sum MM offDiagCells : ℝ) / (model_total MM : ℝ))) := by
  constructor
  · constructor
    · intro h
      by_contra hc
      rw [estimate_RAW_of_gt (by omega)] at h
      exact Dbl.fin_ne_nan _ h
    · exact estimate_RAW_of_le
  · intro h
    exact estimate_RAW_of_gt h

/-- Witness for C8 at the concrete matrix with `counts[AtoC] = 12`. -/
theorem C8_estimate_RAW_spec_witness :
    3 < model_total ⟨fun i => if i = AtoC then 12 else 0, 12⟩ ∧
    estimate_RAW ⟨fun i => if i = AtoC then 12 else 0, 12⟩ ≠ Dbl.nan := by
  have h : 3 < model_total ⟨fun i => if i = AtoC then 12 else 0, 12⟩ := by decide
  refine ⟨h, ?_⟩
  rw [(C8_estimate_RAW_spec _).2 h]
  exact Dbl.fin_ne_nan _

/-- C10: on a degenerate matrix (total count at most 3) the Jukes-Cantor
estimator propagates the NaN of `estimate_RAW`: the clamp
`dist <= 0.0 ? 0.0 : dist` maps NaN to NaN, so `estimate_JC` returns NaN,
not 0. -/
theorem C10_estimate_JC_propagates_nan (MM : Model)
    (h : model_total MM ≤ 3) : estimate_JC MM = Dbl.nan := by
  unfold estimate_JC
  rw [estimate_RAW_of_le h]
  simp

/-- Witness for C10 at the all-zero matrix. -/
theorem C10_estimate_JC_propagates_nan_witness :
    model_total zeroModel ≤ 3 ∧ estimate_JC zeroModel = Dbl.nan :=
  ⟨by decide, C10_estimate_JC_propagates_nan zeroModel (by decide)⟩

/-! ## The four estimators on the canonical diagonal matrix (claim C5) -/

theorem estimate_RAW_diagModel : estimate_RAW diagModel = Dbl.fin 0 := by
  rw [estimate_RAW_of_gt (by decide)]
  norm_num [show model_sum diagModel offDiagCells = 0 from by decide]

theorem estimate_JC_diagModel : estimate_JC diagModel = Dbl.fin 0 := by
  unfold estimate_JC
  rw [estimate_RAW_diagModel]
  norm_num [Dbl.dclamp_fin_nonpos le_rfl]

theorem estimate_KIMURA_diagModel : estimate_KIMURA diagModel = Dbl.fin 0 := by
  unfold estimate_KIMURA
  norm_num [show model_total diagModel = 9 from by decide,
    show model_sum diagModel [AtoG, GtoA, CtoT, TtoC] = 0 from by decide,
    show model_sum diagModel [AtoC, CtoA, AtoT, TtoA, GtoC, CtoG, GtoT, TtoG] = 0
      from by decide,
    Dbl.ofNat, Dbl.ddiv_fin_fin, Dbl.dclamp_fin_nonpos le_rfl]

theorem estimate_LOGDET_diagModel : estimate_LOGDET diagModel = Dbl.nan := by
  unfold estimate_LOGDET
  norm_num [show model_total diagModel = 9 from by decide,
    show model_sum diagModel [AtoA, AtoC, AtoG, AtoT] = 9 from by decide,
    show model_sum diagModel [CtoA, CtoC, CtoG, CtoT] = 0 from by decide,
    show model_sum diagModel [GtoA, GtoC, GtoG, GtoT] = 0 from by decide,
    show model_sum diagModel [TtoA, TtoC, TtoG, TtoT] = 0 from by decide,
    show model_sum diagModel [AtoA, CtoA, GtoA, TtoA] = 9 from by decide,
    show model_sum diagModel [AtoC, CtoC, GtoC, TtoC] = 0 from by decide,
    show model_sum diagModel [AtoG, CtoG, GtoG, TtoG] = 0 from by decide,
    show model_sum diagModel [AtoT, CtoT, GtoT, TtoT] = 0 from by decide,
    show diagModel.counts AtoA = 9 from rfl,
    show diagModel.counts AtoC = 0 from rfl,
    show diagModel.counts AtoG = 0 from rfl,
    show diagModel.counts AtoT = 0 from rfl,
    show diagModel.counts CtoA = 0 from rfl,
    show diagModel.counts CtoC = 0 from rfl,
    show diagModel.counts CtoG = 0 from rfl,
    show diagModel.counts CtoT = 0 from rfl,
    show diagModel.counts GtoA = 0 from rfl,
    show diagModel.counts GtoC = 0 from rfl,
    show diagModel.counts GtoG = 0 from rfl,
    show diagModel.counts GtoT = 0 from rfl,
    show diagModel.counts TtoA = 0 from rfl,
    show diagModel.counts TtoC = 0 from rfl,
    show diagModel.counts TtoG = 0 from rfl,
    show diagModel.counts TtoT = 0 from rfl,
    Dbl.ofNat, Dbl.ddiv_fin_fin, Dbl.dmul_fin_ninf_pos]

/-- C5, counterexample: the claim "each of the four estimators yields
exactly 0 on the canonical diagonal identity matrix" fails for LOGDET:
on `diagModel` the LogDet computation takes `log 0 = -∞` on three row and
three column sums and on the determinant, forming `-∞ - (-∞) = NaN`, so
`estimate_LOGDET` returns NaN, not 0. -/
theorem C5_counterexample_LOGDET : estimate_LOGDET diagModel ≠ Dbl.fin 0 := by
  rw [estimate_LOGDET_diagModel]
  exact Dbl.nan_ne_fin 0

/-- C5, amended: on the canonical diagonal identity matrix the RAW, JC and
KIMURA estimators yield exactly 0, while LOGDET yields NaN (which the
driver masks, printing 0 for every diagonal cell itself). -/
theorem C5_estimators_on_diagModel :
    estimate_RAW diagModel = Dbl.fin 0 ∧
    estimate_JC diagModel = Dbl.fin 0 ∧
    estimate_KIMURA diagModel = Dbl.fin 0 ∧
    estimate_LOGDET diagModel = Dbl.nan :=
  ⟨estimate_RAW_diagModel, estimate_JC_diagModel, estimate_KIMURA_diagModel,
    estimate_LOGDET_diagModel⟩

/-! ## Claim C3: where `model_count` puts each pair of bytes -/

/-- C3: evaluation of `model_count` at the failing input.  For the subject
byte `C` and query byte `A` the code increments `counts[CtoC]` (cell 5)
and leaves `CtoA` (cell 4) untouched, while the claim — and the From×To
layout documented in model.h, used by `model_count_equal` and by the
estimators — requires the opposite; the equal pair `(C,C)` likewise lands
in `CtoA` instead of the diagonal `CtoC`. -/
theorem C3_model_count_wrong_cell :
    (model_count zeroModel ['C'] ['A'] 1).counts CtoC = 1 ∧
    (model_count zeroModel ['C'] ['A'] 1).counts CtoA = 0 ∧
    (model_count zeroModel ['C'] ['C'] 1).counts CtoA = 1 ∧
    (model_count zeroModel ['C'] ['C'] 1).counts CtoC = 0 := by
  decide

/-! ## Claim C4: `model_count_equal` -/

/-- The class `(s >> 1) & 3` used by the fall-back loop of
`model_count_equal`. -/
def nuclClass (c : Char) : ℕ := (c.toNat >>> 1) &&& 3

/-- Number of positions `i < len` at which the buffer reads byte `c`
(reads beyond the end of the list yield the NUL terminator). -/
def occD (S : List Char) (c : Char) : ℕ → ℕ
  | 0 => 0
  | len + 1 => occD S c len + (if S.getD len '\x00' = c then 1 else 0)

/-- A byte of the post-normalization subject/query alphabet: one of the
four nucleotides or a byte below `'A'` (the separators `!`, `#`, `;` and
NUL). -/
def goodEqByte (c : Char) : Prop :=
  c = 'A' ∨ c = 'C' ∨ c = 'G' ∨ c = 'T' ∨ sval c < 65

instance (c : Char) : Decidable (goodEqByte c) := by
  unfold goodEqByte; infer_instance

/-- The fall-back loop of `model_count_equal` counts each nucleotide into
its class: class 0 collects the `A`s, 1 the `C`s, 3 the `G`s and 2 the
`T`s, provided the buffer stays inside the normalized alphabet. -/
theorem equal_local_counts_eq (S : List Char) (len : ℕ)
    (hS : ∀ i, i < len → goodEqByte (S.getD i '\x00')) :
    equal_local_counts S len 0 = occD S 'A' len ∧
    equal_local_counts S len 1 = occD S 'C' len ∧
    equal_local_counts S len 3 = occD S 'G' len ∧
    equal_local_counts S len 2 = occD S 'T' len := by
  induction len with
  | zero => exact ⟨rfl, rfl, rfl, rfl⟩
  | succ n ih =>
    obtain ⟨h0, h1, h3, h2⟩ := ih fun i hi => hS i (hi.trans (Nat.lt_succ_self n))
    have hgood := hS n (Nat.lt_succ_self n)
    unfold equal_local_counts occD
    rcases hgood with h | h | h | h | h
    · rw [h]
      rw [if_neg (by decide : ¬ sval 'A' < 65)]
      simp [Function.update, show ('A'.toNat >>> 1 &&& 3) = 0 from by decide,
        show ((32 : ℕ) &&& 3) = 0 from by decide, h0, h1, h2, h3]
    · rw [h]
      rw [if_neg (by decide : ¬ sval 'C' < 65)]
      simp [Function.update, show ('C'.toNat >>> 1 &&& 3) = 1 from by decide,
        show ((33 : ℕ) &&& 3) = 1 from by decide, h0, h1, h2, h3]
    · rw [h]
      rw [if_neg (by decide : ¬ sval 'G' < 65)]
      simp [Function.update, show ('G'.toNat >>> 1 &&& 3) = 3 from by decide,
        show ((35 : ℕ) &&& 3) = 3 from by decide, h0, h1, h2, h3]
    · rw [h]
      rw [if_neg (by decide : ¬ sval 'T' < 65)]
      simp [Function.update, show ('T'.toNat >>> 1 &&& 3) = 2 from by decide,
        show ((42 : ℕ) &&& 3) = 2 from by decide, h0, h1, h2, h3]
    · have hA : S.getD n '\x00' ≠ 'A' := fun hEq => by rw [hEq] at h; exact absurd h (by decide)
      have hC : S.getD n '\x00' ≠ 'C' := fun hEq => by rw [hEq] at h; exact absurd h (by decide)
      have hG : S.getD n '\x00' ≠ 'G' := fun hEq => by rw [hEq] at h; exact absurd h (by decide)
      have hT : S.getD n '\x00' ≠ 'T' := fun hEq => by rw [hEq] at h; exact absurd h (by decide)
      rw [if_pos h]
      rw [if_neg hA, if_neg hC, if_neg hG, if_neg hT]
      simp [h0, h1, h3, h2]

/-- C4, counterexample: with the (default) Jukes-Cantor model selected,
`model_count_equal` on the buffer `AAAA` of length 4 adds a single count
to `AtoA` (and also one to `CtoC`, `GtoG` and `TtoT`), not the four
`AtoA` counts the claim requires: the fast path assumes an equal
nucleotide distribution instead of reading the buffer. -/
theorem C4_counterexample_equal_distribution :
    (model_count_equal M_JC zeroModel ['A', 'A', 'A', 'A'] 4).counts AtoA = 1 ∧
    (model_count_equal M_JC zeroModel ['A', 'A', 'A', 'A'] 4).counts CtoC = 1 := by
  decide

/-- C4, amended: for the models `M_RAW`, `M_JC` and `M_KIMURA` the
function adds `len/4` to each diagonal cell and `len mod 4` extra to
`TtoT`, regardless of the buffer's contents; for the remaining models it
adds one count to the diagonal cell of each nucleotide occurrence of
`S[0..len)` and skips the separator bytes (`< 'A'`), provided the buffer
stays in the normalized alphabet.  In both branches every off-diagonal
cell and `seq_len` are unchanged. -/
theorem C4_model_count_equal_spec (mdl : EvoModel) (MM : Model)
    (S : List Char) (len : ℕ) :
    ((mdl = M_RAW ∨ mdl = M_JC ∨ mdl = M_KIMURA) →
      (model_count_equal mdl MM S len).counts AtoA = MM.counts AtoA + len / 4 ∧
      (model_count_equal mdl MM S len).counts CtoC = MM.counts CtoC + len / 4 ∧
      (model_count_equal mdl MM S len).counts GtoG = MM.counts GtoG + len / 4 ∧
      (model_count_equal mdl MM S len).counts TtoT =
        MM.counts TtoT + (len / 4 + len % 4) ∧
      (∀ i, i ≠ AtoA → i ≠ CtoC → i ≠ GtoG → i ≠ TtoT →
        (model_count_equal mdl MM S len).counts i = MM.counts i) ∧
      (model_count_equal mdl MM S len).seq_len = MM.seq_len) ∧
    (¬(mdl = M_RAW ∨ mdl = M_JC ∨ mdl = M_KIMURA) →
      (∀ i, i < len → goodEqByte (S.getD i '\x00')) →
      (model_count_equal mdl MM S len).counts AtoA = MM.counts AtoA + occD S 'A' len ∧
      (model_count_equal mdl MM S len).counts CtoC = MM.counts CtoC + occD S 'C' len ∧
      (model_count_equal mdl MM S len).counts GtoG = MM.counts GtoG + occD S 'G' len ∧
      (model_count_equal mdl MM S len).counts TtoT = MM.counts TtoT + occD S 'T' len ∧
      (∀ i, i ≠ AtoA → i ≠ CtoC → i ≠ GtoG → i ≠ TtoT →
        (model_count_equal mdl MM S len).counts i = MM.counts i) ∧
      (model_count_equal mdl MM S len).seq_len = MM.seq_len) := by
  constructor
  · intro hfast
    rw [model_count_equal, if_pos hfast]
    refine ⟨by norm_num [AtoA, CtoC, GtoG, TtoT], by norm_num [AtoA, CtoC, GtoG, TtoT],
      by norm_num [AtoA, CtoC, GtoG, TtoT], ?_, ?_, rfl⟩
    · rw [Nat.and_pow_two_sub_one_eq_mod len 2]
      norm_num [AtoA, CtoC, GtoG, TtoT]
    · intro i hA hC hG hT
      simp only [if_neg hA, if_neg hC, if_neg hG, if_neg hT]
  · intro hslow hS
    obtain ⟨h0, h1, h3, h2⟩ := equal_local_counts_eq S len hS
    rw [model_count_equal, if_neg hslow]
    refine ⟨by norm_num [AtoA, CtoC, GtoG, TtoT, h0], by norm_num [AtoA, CtoC, GtoG, TtoT, h1],
      by norm_num [AtoA, CtoC, GtoG, TtoT, h3], by norm_num [AtoA, CtoC, GtoG, TtoT, h2],
      ?_, rfl⟩
    intro i hA hC hG hT
    simp only [if_neg hA, if_neg hC, if_neg hG, if_neg hT]

/-- Witness for C4 at concrete inputs for both branches. -/
theorem C4_model_count_equal_spec_witness :
    (model_count_equal M_LOGDET zeroModel ['A', 'C', '!'] 3).counts AtoA =
      zeroModel.counts AtoA + occD ['A', 'C', '!'] 'A' 3 ∧
    (model_count_equal M_JC zeroModel ['A', 'C', '!'] 3).counts TtoT =
      zeroModel.counts TtoT + (3 / 4 + 3 % 4) := by
  constructor
  · exact ((C4_model_count_equal_spec M_LOGDET zeroModel ['A', 'C', '!'] 3).2
      (by decide) (by decide)).1
  · exact ((C4_model_count_equal_spec M_JC zeroModel ['A', 'C', '!'] 3).1
      (Or.inr (Or.inl rfl))).2.2.2.1

/-! ## Claim C9: monotonicity of the Jukes-Cantor correction -/

theorem dclamp_fin_of_nonneg {x : ℝ} (h : 0 ≤ x) : Dbl.dclamp (Dbl.fin x) = Dbl.fin x := by
  rcases eq_or_lt_of_le h with h' | h'
  · rw [Dbl.dclamp_fin_nonpos h'.symm.le, ← h']
  · exact Dbl.dclamp_fin_pos h'

/-- On a finite raw rate `r < 3/4` the JC correction evaluates to the
finite value `-(3/4) · log (1 - (4/3) r)`. -/
theorem estimate_JC_of_raw {MM : Model} {r : ℝ} (e : estimate_RAW MM = Dbl.fin r)
    (h0 : 0 ≤ r) (h1 : r < 3/4) :
    estimate_JC MM = Dbl.fin (-(3/4) * Real.log (1 - 4/3 * r)) := by
  unfold estimate_JC
  rw [e]
  have hu : (0:ℝ) < 1 - 4/3 * r := by nlinarith
  simp only [Dbl.dmul_fin_fin, Dbl.dsub_fin_fin]
  rw [Dbl.dlog_fin_pos hu, Dbl.dmul_fin_fin]
  refine dclamp_fin_of_nonneg ?_
  have hlog : Real.log (1 - 4/3 * r) ≤ 0 :=
    Real.log_nonpos (by nlinarith) (by nlinarith)
  nlinarith

attribute [irreducible] estimate_RAW estimate_JC estimate_KIMURA
  estimate_LOGDET Dbl.dle Dbl.dlt Dbl.dadd Dbl.dmul Dbl.ddiv Dbl.dlog
  Dbl.dclamp Dbl.dneg

/-- C9: the Jukes-Cantor correction (with its clamp of non-positive results
to 0) is monotone in the raw substitution rate: whenever
`raw(M1) ≤ raw(M2) < 0.75` (IEEE comparisons, hence both raw rates
finite), `JC(M1) ≤ JC(M2)`. -/
theorem C9_estimate_JC_monotone (M1 M2 : Model)
    (hle : Dbl.dle (estimate_RAW M1) (estimate_RAW M2))
    (hlt : Dbl.dlt (estimate_RAW M2) (Dbl.fin (3/4 : ℝ))) :
    Dbl.dle (estimate_JC M1) (estimate_JC M2) := by
  cases estimate_RAW_cases M1 with
  | inl e1 =>
    rw [e1] at hle
    exact absurd hle (Dbl.not_dle_nan_left _)
  | inr h1 =>
  obtain ⟨r1, e1, hr1⟩ := h1
  cases estimate_RAW_cases M2 with
  | inl e2 =>
    rw [e2] at hle
    exact absurd hle (Dbl.not_dle_nan_right _)
  | inr h2 =>
  obtain ⟨r2, e2, hr2⟩ := h2
  rw [e1, e2] at hle
  rw [e2] at hlt
  have hle' : r1 ≤ r2 := (Dbl.dle_fin_fin r1 r2).1 hle
  have hlt' : r2 < 3/4 := (Dbl.dlt_fin_fin r2 (3/4)).1 hlt
  rw [estimate_JC_of_raw e1 hr1 (lt_of_le_of_lt hle' hlt'),
    estimate_JC_of_raw e2 hr2 hlt']
  refine (Dbl.dle_fin_fin _ _).2 ?_
  have hu2 : (0:ℝ) < 1 - 4/3 * r2 := by nlinarith
  have hlog : Real.log (1 - 4/3 * r2) ≤ Real.log (1 - 4/3 * r1) :=
    Real.log_le_log hu2 (by nlinarith)
  nlinarith

/-- Witness for C9: the diagonal matrix (raw rate 0) against a matrix with
raw rate 1/2. -/
theorem C9_estimate_JC_monotone_witness :
    Dbl.dle (estimate_JC diagModel)
      (estimate_JC ⟨fun i => if i = AtoC then 6 else if i = AtoA then 6 else 0, 12⟩) := by
  have e2 : estimate_RAW ⟨fun i => if i = AtoC then 6 else if i = AtoA then 6 else 0, 12⟩ =
      Dbl.fin ((6 : ℝ) / 12) := by
    rw [estimate_RAW_of_gt (by decide)]
    norm_num [show model_sum ⟨fun i => if i = AtoC then 6 else if i = AtoA then 6 else 0, 12⟩
        offDiagCells = 6 from by decide,
      show model_total ⟨fun i => if i = AtoC then 6 else if i = AtoA then 6 else 0, 12⟩ = 12
        from by decide]
  refine C9_estimate_JC_monotone _ _ ?_ ?_
  · rw [estimate_RAW_diagModel, e2, Dbl.dle_fin_fin]
    norm_num
  · rw [e2, Dbl.dlt_fin_fin]
    norm_num

/-! ## Claim C2: the shustring threshold (src/sequence.c, src/process.c)

The probability computations run on `double`; the code only ever raises
rationals to natural powers, so the exact values are rational and the
computation is embedded over `ℚ` (rounding is not modelled). -/

/-- The loop of `binomial_coefficient` (identical in src/sequence.c and
src/process.c): after `j` iterations `res` holds the value obtained by the
exact alternation `res *= n - k + i; res /= i` (the division is exact at
every step, so ℕ division is faithful). -/
def binomLoop (n k : ℕ) : ℕ → ℕ
  | 0 => 1
  | j + 1 => binomLoop n k j * (n - k + (j + 1)) / (j + 1)

/-- `binomial_coefficient(n, k)` of src/sequence.c / src/process.c.  Note
the code's first guard `n <= 0 || k > n` makes `C(0,0) = 0`. -/
def binomial_coefficient (n k : ℕ) : ℕ :=
  if n = 0 ∨ n < k then 0
  else if k = 0 ∨ k = n then 1
  else
    let k' := if n - k < k then n - k else k
    binomLoop n k' k'

/-- The running sum of `shustring_cum_prob` (src/sequence.c; the identical
function is called `shuprop` in src/process.c) after the iterations
`k = 0 .. j-1`; once the sum reaches 1 it is clamped to 1 and the loop
breaks (subsequent steps leave it unchanged). -/
def shuAux (x : ℕ) (p : ℚ) (l : ℕ) : ℕ → ℚ
  | 0 => 0
  | j + 1 =>
    let s := shuAux x p l j
    if 1 ≤ s then s
    else
      let t : ℚ := p ^ j * (1/2 - p) ^ (x - j)
      let s' := s + 2 ^ x * (t * (1 - t) ^ l) * (binomial_coefficient x j : ℚ)
      if 1 ≤ s' then 1 else s'

/-- `shustring_cum_prob(x, p, l)` of src/sequence.c (= `shuprop` of
src/process.c): the cumulative shustring probability `P{X ≤ x}`. -/
def shustring_cum_prob (x : ℕ) (p : ℚ) (l : ℕ) : ℚ := shuAux x p l (x + 1)

/-- The `while` loop of `min_anchor_length` in src/sequence.c:
`while (shustring_cum_prob(x, g/2, l) < 1 - p) x++; return x;`, with
explicit fuel (`none` when the fuel runs out before the loop exits). -/
def minAnchorLoop (p g : ℚ) (l : ℕ) : ℕ → ℕ → Option ℕ
  | 0, _ => none
  | fuel + 1, x =>
    if shustring_cum_prob x (g/2) l < 1 - p then minAnchorLoop p g l fuel (x + 1)
    else some x

/-- `min_anchor_length(p, g, l)` of src/sequence.c, starting at `x = 1`. -/
def min_anchor_length (p g : ℚ) (l : ℕ) (fuel : ℕ) : Option ℕ :=
  minAnchorLoop p g l fuel 1

/-- The `for` loop of the duplicate `min_anchor_length` in src/process.c:
`for (; prop < 1 - p; x++) prop = shuprop(x, g/2, l);` — the test reads
the previous iteration's value and `x` is incremented once more after the
final probe. -/
def minAnchorLoopProc (p g : ℚ) (l : ℕ) : ℕ → ℕ → ℚ → Option ℕ
  | 0, _, _ => none
  | fuel + 1, x, prop =>
    if prop < 1 - p then
      minAnchorLoopProc p g l fuel (x + 1) (shustring_cum_prob x (g/2) l)
    else some x

/-- `min_anchor_length(p, g, l)` of src/process.c: `x = 1`, `prop = 0.0`. -/
def min_anchor_length_proc (p g : ℚ) (l : ℕ) (fuel : ℕ) : Option ℕ :=
  minAnchorLoopProc p g l fuel 1 0

/-- `shustring_cum_prob 0 p l = 0`: the single `k = 0` summand carries the
factor `binomial_coefficient 0 0`, which the code's `n <= 0` guard makes
0. -/
theorem shustring_cum_prob_zero (p : ℚ) (l : ℕ) :
    shustring_cum_prob 0 p l = 0 := by
  simp [shustring_cum_prob, shuAux, binomial_coefficient]

/-- What the sequence.c while-loop computes: if it terminates with `t`,
then `t` is the first index `≥ x` whose cumulative probability reaches
`1 - p`. -/
theorem minAnchorLoop_spec (p g : ℚ) (l : ℕ) :
    ∀ fuel x t, minAnchorLoop p g l fuel x = some t →
      x ≤ t ∧ 1 - p ≤ shustring_cum_prob t (g/2) l ∧
      ∀ y, x ≤ y → y < t → shustring_cum_prob y (g/2) l < 1 - p := by
  intro fuel
  induction fuel with
  | zero => intro x t h; cases h
  | succ n ih =>
    intro x t h
    unfold minAnchorLoop at h
    by_cases hc : shustring_cum_prob x (g/2) l < 1 - p
    · rw [if_pos hc] at h
      obtain ⟨h1, h2, h3⟩ := ih (x + 1) t h
      refine ⟨by omega, h2, fun y hy1 hy2 => ?_⟩
      rcases Nat.eq_or_lt_of_le hy1 with rfl | hy1'
      · exact hc
      · exact h3 y hy1' hy2
    · rw [if_neg hc] at h
      cases h
      exact ⟨le_rfl, not_lt.1 hc, fun y hy1 hy2 => absurd (lt_of_le_of_lt hy1 hy2) (lt_irrefl _)⟩

/-- The claim holds of the src/sequence.c implementation: a returned
threshold `t` is at least 1, satisfies `shuprop(t, g/2, l) ≥ 1 - p`, and
(given `p < 1`) `shuprop(t - 1, g/2, l) < 1 - p`, so `t` is the smallest
such length. -/
theorem min_anchor_length_correct (p g : ℚ) (l fuel t : ℕ) (hp : p < 1)
    (h : min_anchor_length p g l fuel = some t) :
    1 ≤ t ∧ 1 - p ≤ shustring_cum_prob t (g/2) l ∧
    shustring_cum_prob (t - 1) (g/2) l < 1 - p := by
  obtain ⟨h1, h2, h3⟩ := minAnchorLoop_spec p g l fuel 1 t h
  refine ⟨h1, h2, ?_⟩
  rcases Nat.eq_or_lt_of_le h1 with rfl | h1'
  · rw [shustring_cum_prob_zero]
    linarith
  · exact h3 (t - 1) (by omega) (by omega)

/-- Witness for the sequence.c characterisation at `p = 1/2`, `g = 1/2`,
`l = 1`. -/
theorem min_anchor_length_correct_witness :
    (1/2 : ℚ) < 1 ∧ min_anchor_length (1/2) (1/2) 1 10 = some 1 ∧
    (1 ≤ 1 ∧ 1 - (1/2 : ℚ) ≤ shustring_cum_prob 1 ((1/2)/2) 1 ∧
      shustring_cum_prob (1 - 1) ((1/2)/2) 1 < 1 - (1/2 : ℚ)) :=
  ⟨by norm_num,
    by norm_num [min_anchor_length, minAnchorLoop, shustring_cum_prob, shuAux,
      binomial_coefficient, binomLoop],
    min_anchor_length_correct (1/2) (1/2) 1 10 1 (by norm_num)
      (by norm_num [min_anchor_length, minAnchorLoop, shustring_cum_prob, shuAux,
        binomial_coefficient, binomLoop])⟩

/-- C2: the two `min_anchor_length` implementations disagree.  At
`p = 1/2`, `g = 1/2`, `l = 1` the cumulative probability already reaches
`1 - p` at `x = 1` (`shuprop(1, 1/4, 1) = 3/4 ≥ 1/2`), so the smallest
admissible threshold is 1 and the src/sequence.c copy returns 1; the
src/process.c copy returns 2 — one more than the smallest `x` — because
its `for` loop increments `x` once more after the passing probe,
contradicting its own comment ("Find smallest x") and the repository's
test of the threshold (test/test_process.c). -/
theorem C2_min_anchor_length_off_by_one :
    min_anchor_length (1/2) (1/2) 1 10 = some 1 ∧
    min_anchor_length_proc (1/2) (1/2) 1 10 = some 2 ∧
    1 - (1/2 : ℚ) ≤ shustring_cum_prob (2 - 1) ((1/2)/2) 1 := by
  refine ⟨?_, ?_, ?_⟩ <;>
    norm_num [min_anchor_length, minAnchorLoop, min_anchor_length_proc,
      minAnchorLoopProc, shustring_cum_prob, shuAux, binomial_coefficient,
      binomLoop]

/-! ## The enhanced suffix array and the match engine (src/esa.c)

`saidx_t`/`ssize_t` values are embedded as `ℤ` (the sentinel `-1` is in
range); array reads go through `getD` with the index clamped by `toNat`,
so a read at a negative index yields element 0 and a read past the end
yields the default — the correctness theorems only ever rely on reads that
the validity hypotheses place in bounds.  `size_t` loop counters that are
provably non-negative are embedded as `ℤ` with plain comparisons. -/

/-- The prefix length up to which LCP-intervals are cached
(`CACHE_LENGTH` of src/esa.c). -/
def CACHE_LENGTH : ℕ := 10

/-- `lcp_inter_t` of src/esa.h: `{ saidx_t l, i, j; saidx_t m; }`. -/
structure LcpInter where
  l : ℤ
  i : ℤ
  j : ℤ
  m : ℤ
deriving DecidableEq

/-- The empty/sentinel interval `{-1, -1, -1, -1}`. -/
def noInter : LcpInter := ⟨-1, -1, -1, -1⟩

/-- The `esa_s` structure of src/esa.h: the subject text `RS`, the suffix
array, the LCP array, the child table, the first-variant-character table,
the lcp-interval cache and the text length. -/
structure Esa where
  s : List Char
  SA : List ℤ
  LCP : List ℤ
  CLD : List ℤ
  FVC : List Char
  cache : List LcpInter
  len : ℤ

/-- Array read of a `saidx_t` array. -/
def geti (L : List ℤ) (i : ℤ) : ℤ := L.getD i.toNat 0

/-- Read of a `char` buffer (the byte after the end is the NUL
terminator). -/
def gets (L : List Char) (i : ℤ) : Char := L.getD i.toNat '\x00'

/-- `char2code` of src/esa.c. -/
def char2code (c : Char) : ℤ :=
  if c = 'A' then 0 else if c = 'C' then 1 else if c = 'G' then 2
  else if c = 'T' then 3 else -1

/-- `code2char` of src/esa.c. -/
def code2char (code : ℤ) : Char :=
  if code % 4 = 0 then 'A' else if code % 4 = 1 then 'C'
  else if code % 4 = 2 then 'G' else 'T'

/-- The final bounds check of `get_interval` (src/esa.c): test whether the
current run's first-variant character matches `a` (read from `FVC` when
`i` moved, from the text on the original `i`), and either return the
interval `{i, ij.j, LCP[m], m}` or the empty interval (which keeps the
incoming `l` and `m` fields). -/
def giFinal (C : Esa) (ij : LcpInter) (a : Char) (i m : ℤ) : LcpInter :=
  if (if i ≠ ij.i then gets C.FVC i else gets C.s (geti C.SA i + ij.l)) = a
  then ⟨geti C.LCP m, i, ij.j, m⟩
  else { ij with i := -1, j := -1 }

/-- The `do … while (LCP[m] == l)` chain walk of `get_interval`
(src/esa.c), entered at the `SoSueMe` label: `c` is the current child's
first character at depth `l`; on `c == a` the child `[i, m-1]` is returned
with its own l-index `L(CLD,m)`; on `c > a` the walk stops; otherwise the
walk advances to the next l-index `R(CLD,m)`.  The fuel only guards
non-valid inputs; on a valid ESA the chain is strictly increasing and the
fuel never runs out. -/
def giLoop (C : Esa) (ij : LcpInter) (a : Char) : ℕ → ℤ → ℤ → Char → LcpInter
  | 0, _, _, _ => { ij with i := -1, j := -1 }
  | fuel + 1, i, m, c =>
    if c = a then
      let n := geti C.CLD (m - 1)
      ⟨geti C.LCP n, i, m - 1, n⟩
    else if sval a < sval c then
      giFinal C ij a i m
    else
      if m = ij.j then giFinal C ij a m m
      else
        let m' := geti C.CLD m
        if geti C.LCP m' = ij.l then giLoop C ij a fuel m m' (gets C.FVC m)
        else giFinal C ij a m m'

/-- `get_interval` of src/esa.c: for the lcp-interval of a word `w`,
compute the interval of `wa`. -/
def get_interval (C : Esa) (ij : LcpInter) (a : Char) : LcpInter :=
  if ij.i = ij.j then
    if gets C.s (geti C.SA ij.i + ij.l) ≠ a then { ij with i := -1, j := -1 }
    else ij
  else
    giLoop C ij a ((ij.j - ij.i).toNat + 1) ij.i ij.m
      (gets C.s (geti C.SA ij.i + ij.l))

/-- The byte-by-byte extension of a singleton match in `get_match_from`
(src/esa.c): `for (; k < qlen && S[p + k]; k++) if (S[p+k] != query[k])
{ ij.l = k; return ij; }  ij.l = k; return ij;`. -/
def singletonExt (C : Esa) (query : List Char) (qlen : ℕ) (p : ℤ)
    (ij : LcpInter) (k : ℤ) : LcpInter :=
  if h : k < (qlen : ℤ) ∧ gets C.s (p + k) ≠ '\x00' then
    if gets C.s (p + k) ≠ query.getD k.toNat '\x00' then { ij with l := k }
    else singletonExt C query qlen p ij (k + 1)
  else { ij with l := k }
termination_by ((qlen : ℤ) - k).toNat
decreasing_by
  have := h.1
  omega

/-- The match extension of `get_match_from` (src/esa.c):
`for (int p = SA[i]; k < l; k++) if (S[p + k] != query[k]) { res.l = k;
return res; }` — either an early return (`Sum.inl`) or the final value of
`k` (`Sum.inr`). -/
def gmExt (C : Esa) (query : List Char) (res : LcpInter) (p l : ℤ) (k : ℤ) :
    LcpInter ⊕ ℤ :=
  if h : k < l then
    if gets C.s (p + k) ≠ query.getD k.toNat '\x00' then Sum.inl { res with l := k }
    else gmExt C query res p l (k + 1)
  else Sum.inr k
termination_by (l - k).toNat
decreasing_by omega

/-- The main `do … while (k < qlen)` loop of `get_match_from` (src/esa.c).
Each iteration descends one character via `get_interval`, records the new
bounds in `res`, and extends the match by direct comparison up to
`min(qlen, ij.l)` (`l = qlen; if (i < j && ij.l < l) l = ij.l`).  `k`
grows by at least one per iteration, so the fuel `qlen + 2` used by
`get_match_from` never runs out. -/
def gmLoop (C : Esa) (query : List Char) (qlen : ℕ) :
    ℕ → ℤ → LcpInter → LcpInter → LcpInter
  | 0, k, _, res => { res with l := k }
  | fuel + 1, k, ij, res =>
    let ij' := get_interval C ij (query.getD k.toNat '\x00')
    if ij'.i = -1 ∧ ij'.j = -1 then { res with l := k }
    else
      let res' := { res with i := ij'.i, j := ij'.j }
      let l : ℤ := if ij'.i < ij'.j ∧ ij'.l < (qlen : ℤ) then ij'.l else (qlen : ℤ)
      match gmExt C query res' (geti C.SA ij'.i) l (k + 1) with
      | Sum.inl out => out
      | Sum.inr k' =>
        if k' < (qlen : ℤ) then gmLoop C query qlen fuel k' ij' res'
        else { res' with l := (qlen : ℤ) }

/-- `get_match_from` of src/esa.c: extend a match of `query[0..k)` given
its lcp-interval `ij`. -/
def get_match_from (C : Esa) (query : List Char) (qlen : ℕ) (k : ℤ)
    (ij : LcpInter) : LcpInter :=
  if ij.i = -1 ∧ ij.j = -1 then ij
  else if ij.i = ij.j then
    singletonExt C query qlen (geti C.SA ij.i) ij ij.l
  else
    gmLoop C query qlen (qlen + 2) k ij ij

/-- `get_match` of src/esa.c: start `get_match_from` at the root interval
`{LCP[m], 0, len-1, m}` with `m = L(CLD, len)`; degenerate inputs return
the sentinel. -/
def get_match (C : Esa) (query : List Char) (qlen : ℕ) : LcpInter :=
  if C.len = 0 then noInter
  else
    let m := geti C.CLD (C.len - 1)
    get_match_from C query qlen 0 ⟨geti C.LCP m, 0, C.len - 1, m⟩

/-- The 2-bit packing loop of `get_match_cached` (src/esa.c):
`for (i = 0; i < CACHE_LENGTH && offset >= 0; i++) { offset <<= 2;
offset |= char2code(query[i]); }`. -/
def cacheOffsetGo (query : List Char) : ℕ → ℤ → ℤ
  | 0, off => off
  | i + 1, off =>
    if 0 ≤ off then
      let code := char2code (query.getD (CACHE_LENGTH - (i + 1)) '\x00')
      cacheOffsetGo query i (if code = -1 then -1 else off * 4 + code)
    else off

/-- `get_match_cached` of src/esa.c: for queries longer than
`CACHE_LENGTH`, look the 10-character prefix up in the cache and continue
matching from the cached interval at `k = ij.l`; fall back to the plain
search on non-ACGT prefixes or empty cache entries. -/
def get_match_cached (C : Esa) (query : List Char) (qlen : ℕ) : LcpInter :=
  if qlen ≤ CACHE_LENGTH then get_match C query qlen
  else
    let offset := cacheOffsetGo query CACHE_LENGTH 0
    if offset < 0 then get_match C query qlen
    else
      let ij := C.cache.getD offset.toNat noInter
      if ij.i = -1 ∧ ij.j = -1 then get_match C query qlen
      else get_match_from C query qlen ij.l ij

/-! ## The match length never exceeds the query length

These bounds hold for any ESA whose cache entries are either empty or
carry a depth `0 ≤ l ≤ CACHE_LENGTH` (as the cache-filling DFS
guarantees) and whose text length is not exactly 1; they are what the
anchor layer needs. -/

theorem singletonExt_l_le (C : Esa) (query : List Char) (qlen : ℕ) (p : ℤ)
    (ij : LcpInter) : ∀ k : ℤ, k ≤ (qlen : ℤ) →
    (singletonExt C query qlen p ij k).l ≤ (qlen : ℤ) := by
  intro k
  induction k using singletonExt.induct C query qlen p ij with
  | case1 k h1 h2 =>
    intro hk
    rw [singletonExt, dif_pos h1, if_pos h2]
    exact hk
  | case2 k h1 h2 ih =>
    intro _hk
    rw [singletonExt, dif_pos h1, if_neg h2]
    exact ih (by omega)
  | case3 k h1 =>
    intro hk
    rw [singletonExt, dif_neg h1]
    exact hk

theorem gmExt_inl_l_lt (C : Esa) (query : List Char) (res : LcpInter)
    (p l : ℤ) : ∀ k out, gmExt C query res p l k = Sum.inl out → out.l < l := by
  intro k
  induction k using gmExt.induct C query res p l with
  | case1 k h1 h2 =>
    intro out hout
    rw [gmExt, dif_pos h1, if_pos h2] at hout
    cases hout
    exact h1
  | case2 k h1 h2 ih =>
    intro out hout
    rw [gmExt, dif_pos h1, if_neg h2] at hout
    exact ih out hout
  | case3 k h1 =>
    intro out hout
    rw [gmExt, dif_neg h1] at hout
    cases hout

theorem gmExt_inr_bounds (C : Esa) (query : List Char) (res : LcpInter)
    (p l : ℤ) : ∀ k k', gmExt C query res p l k = Sum.inr k' →
    k ≤ k' ∧ (k' ≤ l ∨ k' = k) := by
  intro k
  induction k using gmExt.induct C query res p l with
  | case1 k h1 h2 =>
    intro k' hout
    rw [gmExt, dif_pos h1, if_pos h2] at hout
    cases hout
  | case2 k h1 h2 ih =>
    intro k' hout
    rw [gmExt, dif_pos h1, if_neg h2] at hout
    obtain ⟨ha, hb⟩ := ih k' hout
    refine ⟨by omega, Or.inl ?_⟩
    rcases hb with hb | hb <;> omega
  | case3 k h1 =>
    intro k' hout
    rw [gmExt, dif_neg h1] at hout
    cases hout
    exact ⟨le_rfl, Or.inr rfl⟩

theorem ite_le_right {c : Prop} [Decidable c] {x q : ℤ} (h : c → x ≤ q) :
    (if c then x else q) ≤ q := by
  split
  · next hc => exact h hc
  · exact le_rfl

theorem gmLoop_l_le (C : Esa) (query : List Char) (qlen : ℕ) :
    ∀ fuel (k : ℤ) ij res, k ≤ (qlen : ℤ) →
    (gmLoop C query qlen fuel k ij res).l ≤ (qlen : ℤ) := by
  intro fuel
  induction fuel with
  | zero => intro k ij res hk; exact hk
  | succ n ih =>
    intro k ij res hk
    simp only [gmLoop]
    split
    · exact hk
    · split
      · next out hout =>
        have h1 := gmExt_inl_l_lt C query _ _ _ _ out hout
        have h2 : (if (get_interval C ij (query.getD k.toNat '\x00')).i <
              (get_interval C ij (query.getD k.toNat '\x00')).j ∧
              (get_interval C ij (query.getD k.toNat '\x00')).l < (qlen : ℤ) then
            (get_interval C ij (query.getD k.toNat '\x00')).l else (qlen : ℤ)) ≤
            (qlen : ℤ) := ite_le_right fun hc => le_of_lt hc.2
        exact le_of_lt (lt_of_lt_of_le h1 h2)
      · next k' hout =>
        split
        · next hklt => exact ih k' _ _ (le_of_lt hklt)
        · exact le_rfl

theorem get_match_from_l_le (C : Esa) (query : List Char) (qlen : ℕ)
    (k : ℤ) (ij : LcpInter) (hij : ij.i ≠ ij.j ∨ ij.l ≤ (qlen : ℤ))
    (hk : k ≤ (qlen : ℤ)) :
    (get_match_from C query qlen k ij).l ≤ (qlen : ℤ) := by
  unfold get_match_from
  split
  · next hemp =>
    rcases hij with hij | hij
    · exact absurd (hemp.1.trans hemp.2.symm) hij
    · exact hij
  · split
    · next hsing =>
      rcases hij with hij | hij
      · exact absurd hsing hij
      · exact singletonExt_l_le C query qlen _ ij ij.l hij
    · exact gmLoop_l_le C query qlen _ k ij ij hk

theorem get_match_l_le (C : Esa) (query : List Char) (qlen : ℕ)
    (hlen : C.len ≤ 0 ∨ 2 ≤ C.len) :
    (get_match C query qlen).l ≤ (qlen : ℤ) := by
  unfold get_match
  split
  · show (-1 : ℤ) ≤ (qlen : ℤ)
    omega
  · next hne =>
    refine get_match_from_l_le C query qlen 0 _ (Or.inl ?_) (by omega)
    show (0 : ℤ) ≠ C.len - 1
    rcases hlen with h | h
    · rcases eq_or_lt_of_le h with h0 | h0
      · exact absurd h0 hne
      · omega
    · omega

theorem cache_getD_cases (C : Esa) (off : ℕ) :
    C.cache.getD off noInter = noInter ∨ C.cache.getD off noInter ∈ C.cache := by
  by_cases h : off < C.cache.length
  · right
    rw [List.getD_eq_getElem C.cache noInter h]
    exact List.getElem_mem h
  · left
    exact List.getD_eq_default C.cache noInter (by omega)

/-- Bounded cache entries: every entry is either the empty sentinel or a
cached interval of depth between 0 and `CACHE_LENGTH` — the shape
`esa_init_cache` produces. -/
def cacheBounded (C : Esa) : Prop :=
  ∀ E ∈ C.cache, (E.i = -1 ∧ E.j = -1) ∨ (0 ≤ E.l ∧ E.l ≤ (CACHE_LENGTH : ℤ))

theorem get_match_cached_l_le (C : Esa) (query : List Char) (qlen : ℕ)
    (hlen : C.len ≤ 0 ∨ 2 ≤ C.len) (hc : cacheBounded C) :
    (get_match_cached C query qlen).l ≤ (qlen : ℤ) := by
  simp only [get_match_cached]
  split
  · exact get_match_l_le C query qlen hlen
  · next hq =>
    split
    · exact get_match_l_le C query qlen hlen
    · split
      · exact get_match_l_le C query qlen hlen
      · next hne =>
        set E := C.cache.getD (cacheOffsetGo query CACHE_LENGTH 0).toNat noInter with hE
        have hEl : 0 ≤ E.l ∧ E.l ≤ (CACHE_LENGTH : ℤ) := by
          rcases cache_getD_cases C (cacheOffsetGo query CACHE_LENGTH 0).toNat with h | h
          · rw [← hE] at h
            rw [h] at hne
            exact absurd ⟨rfl, rfl⟩ hne
          · rw [← hE] at h
            rcases hc E h with h' | h'
            · exact absurd h' hne
            · exact h'
        refine get_match_from_l_le C query qlen E.l E (Or.inr ?_) ?_ <;>
          · have : CACHE_LENGTH < qlen := by omega
            omega

/-! ## Validity of an enhanced suffix array (claim C1)

`EsaValid` formalises "a validly constructed enhanced suffix array": `SA`
holds positions of the text, adjacent suffixes share exactly `LCP[r]`
characters and are ordered at the first variant character (in the order
of C `char` comparisons, which `get_interval` uses; on andi's ASCII
alphabet this coincides with the byte order libdivsufsort sorts by),
`FVC[r] = S[SA[r] + LCP[r]]`, and the child table `CLD` holds the
next-l-index and first-l-index links of the lcp-interval tree
(Ohlebusch).  The bounded quantifiers range over `ℕ` so that the
predicate is decidable on a concrete ESA. -/

/-- Position `m` is the first l-index of the lcp-interval `[i, j]`: it
attains the minimum of `LCP` on `(i, j]` and every position of `(i, m)`
exceeds that minimum. -/
def isFli (C : Esa) (i j m : ℤ) : Prop :=
  i < m ∧ m ≤ j ∧
  (∀ r : ℕ, r < j.toNat + 1 → i < (r : ℤ) → geti C.LCP m ≤ geti C.LCP r) ∧
  (∀ r : ℕ, r < m.toNat → i < (r : ℤ) → geti C.LCP m < geti C.LCP r)

/-- `m2` is the next l-index after `m` inside the same lcp-interval. -/
def nextEq (C : Esa) (m m2 : ℤ) : Prop :=
  m < m2 ∧ geti C.LCP m2 = geti C.LCP m ∧
  ∀ r : ℕ, r < m2.toNat → m < (r : ℤ) → geti C.LCP m < geti C.LCP r

/-- The `R(CLD, m)` link of an l-index that has a next l-index in its
interval: it points at that next l-index. -/
def cldNext (C : Esa) : Prop :=
  ∀ m : ℕ, m < C.s.length → ∀ m2 : ℕ, m2 < C.s.length →
    nextEq C m m2 → geti C.CLD m = m2

/-- The `R(CLD, m)` link of the last l-index `m` of an interval ending at
`j > m`: it points at the first l-index of the last child `[m, j]`. -/
def cldDownR (C : Esa) : Prop :=
  ∀ m : ℕ, 1 ≤ m → m < C.s.length → ∀ j : ℕ, j < C.s.length → (m : ℤ) < j →
    (∀ r : ℕ, r < j + 1 → (m : ℤ) < r → geti C.LCP m < geti C.LCP r) →
    ((j : ℤ) = C.len - 1 ∨ geti C.LCP ((j : ℤ) + 1) < geti C.LCP m) →
    isFli C m j (geti C.CLD m)

/-- The `L(CLD, m) = CLD[m-1]` link: the cell before an l-index `m` holds
the first l-index of the child interval `[p, m-1]` ending just before
`m`, where `p` is the nearest position left of `m` whose `LCP` value does
not exceed `LCP[m]`.  The instance `m = len` is the root link
`L(CLD, len)` used by `get_match`. -/
def cldDownL (C : Esa) : Prop :=
  ∀ p : ℕ, p < C.s.length → ∀ m : ℕ, m < C.s.length + 1 → (p : ℤ) < (m : ℤ) - 1 →
    geti C.LCP p ≤ geti C.LCP m →
    (∀ r : ℕ, r < m → (p : ℤ) < r → geti C.LCP m < geti C.LCP r) →
    isFli C p ((m : ℤ) - 1) (geti C.CLD ((m : ℤ) - 1))

/-- Validity of an enhanced suffix array (see the section comment). -/
def EsaValid (C : Esa) : Prop :=
  1 ≤ C.len ∧
  (C.s.length : ℤ) = C.len ∧
  C.LCP.length = C.s.length + 1 ∧
  (∀ ch ∈ C.s, ch ≠ '\x00') ∧
  (∀ r : ℕ, r < C.s.length → 0 ≤ geti C.SA r ∧ geti C.SA r < C.len) ∧
  (∀ p : ℕ, p < C.s.length → ∃ r ∈ Finset.range C.s.length, geti C.SA r = (p : ℤ)) ∧
  geti C.LCP 0 = -1 ∧
  geti C.LCP C.len = -1 ∧
  (∀ r : ℕ, r < C.s.length → 1 ≤ r → 0 ≤ geti C.LCP r) ∧
  (∀ r : ℕ, r < C.s.length → 1 ≤ r → ∀ d : ℕ, d < (geti C.LCP r).toNat →
    gets C.s (geti C.SA ((r : ℤ) - 1) + d) = gets C.s (geti C.SA r + d)) ∧
  (∀ r : ℕ, r < C.s.length → 1 ≤ r →
    sval (gets C.s (geti C.SA ((r : ℤ) - 1) + geti C.LCP r)) <
      sval (gets C.s (geti C.SA r + geti C.LCP r))) ∧
  (∀ r : ℕ, r < C.s.length → 1 ≤ r →
    gets C.FVC r = gets C.s (geti C.SA r + geti C.LCP r)) ∧
  cldNext C ∧ cldDownR C ∧ cldDownL C

/-! Lifts of the `ℕ`-bounded validity fields to `ℤ` indices. -/

theorem ev_pos {C : Esa} (hv : EsaValid C) : 1 ≤ C.len := hv.1

theorem ev_len {C : Esa} (hv : EsaValid C) : (C.s.length : ℤ) = C.len := hv.2.1

theorem ev_LCPlen {C : Esa} (hv : EsaValid C) :
    C.LCP.length = C.s.length + 1 := hv.2.2.1

theorem ev_nul {C : Esa} (hv : EsaValid C) : ∀ ch ∈ C.s, ch ≠ '\x00' :=
  hv.2.2.2.1

theorem ev_SA {C : Esa} (hv : EsaValid C) (r : ℤ) (h0 : 0 ≤ r)
    (h1 : r < C.len) : 0 ≤ geti C.SA r ∧ geti C.SA r < C.len := by
  have hc : ((r.toNat : ℕ) : ℤ) = r := Int.toNat_of_nonneg h0
  have := hv.2.2.2.2.1 r.toNat (by have := ev_len hv; omega)
  rwa [hc] at this

theorem ev_surj {C : Esa} (hv : EsaValid C) (p : ℤ) (h0 : 0 ≤ p)
    (h1 : p < C.len) : ∃ r : ℤ, 0 ≤ r ∧ r < C.len ∧ geti C.SA r = p := by
  have hc : ((p.toNat : ℕ) : ℤ) = p := Int.toNat_of_nonneg h0
  obtain ⟨r, hr, hSA⟩ := hv.2.2.2.2.2.1 p.toNat (by have := ev_len hv; omega)
  rw [Finset.mem_range] at hr
  refine ⟨r, by omega, by have := ev_len hv; omega, ?_⟩
  rwa [hc] at hSA

theorem ev_LCP0 {C : Esa} (hv : EsaValid C) : geti C.LCP 0 = -1 :=
  hv.2.2.2.2.2.2.1

theorem ev_LCPn {C : Esa} (hv : EsaValid C) : geti C.LCP C.len = -1 :=
  hv.2.2.2.2.2.2.2.1

theorem ev_LCPpos {C : Esa} (hv : EsaValid C) (r : ℤ) (h0 : 0 < r)
    (h1 : r < C.len) : 0 ≤ geti C.LCP r := by
  have hc : ((r.toNat : ℕ) : ℤ) = r := Int.toNat_of_nonneg (by omega)
  have := hv.2.2.2.2.2.2.2.2.1 r.toNat (by have := ev_len hv; omega) (by omega)
  rwa [hc] at this

theorem ev_LCPeq {C : Esa} (hv : EsaValid C) (r : ℤ) (h0 : 0 < r)
    (h1 : r < C.len) (d : ℤ) (hd0 : 0 ≤ d) (hd1 : d < geti C.LCP r) :
    gets C.s (geti C.SA (r - 1) + d) = gets C.s (geti C.SA r + d) := by
  have hc : ((r.toNat : ℕ) : ℤ) = r := Int.toNat_of_nonneg (by omega)
  have hd : ((d.toNat : ℕ) : ℤ) = d := Int.toNat_of_nonneg hd0
  have := hv.2.2.2.2.2.2.2.2.2.1 r.toNat (by have := ev_len hv; omega)
    (by omega) d.toNat (by rw [hc]; omega)
  rwa [hc, hd] at this

theorem ev_LCPlt {C : Esa} (hv : EsaValid C) (r : ℤ) (h0 : 0 < r)
    (h1 : r < C.len) :
    sval (gets C.s (geti C.SA (r - 1) + geti C.LCP r)) <
      sval (gets C.s (geti C.SA r + geti C.LCP r)) := by
  have hc : ((r.toNat : ℕ) : ℤ) = r := Int.toNat_of_nonneg (by omega)
  have := hv.2.2.2.2.2.2.2.2.2.2.1 r.toNat (by have := ev_len hv; omega)
    (by omega)
  rwa [hc] at this

theorem ev_FVC {C : Esa} (hv : EsaValid C) (r : ℤ) (h0 : 0 < r)
    (h1 : r < C.len) :
    gets C.FVC r = gets C.s (geti C.SA r + geti C.LCP r) := by
  have hc : ((r.toNat : ℕ) : ℤ) = r := Int.toNat_of_nonneg (by omega)
  have := hv.2.2.2.2.2.2.2.2.2.2.2.1 r.toNat (by have := ev_len hv; omega)
    (by omega)
  rwa [hc] at this

theorem ev_next {C : Esa} (hv : EsaValid C) (m m2 : ℤ) (h0 : 0 ≤ m)
    (h1 : m2 < C.len) (h2 : m < m2) (h3 : geti C.LCP m2 = geti C.LCP m)
    (h4 : ∀ r : ℤ, m < r → r < m2 → geti C.LCP m < geti C.LCP r) :
    geti C.CLD m = m2 := by
  have hcm : ((m.toNat : ℕ) : ℤ) = m := Int.toNat_of_nonneg h0
  have hcm2 : ((m2.toNat : ℕ) : ℤ) = m2 := Int.toNat_of_nonneg (by omega)
  have := hv.2.2.2.2.2.2.2.2.2.2.2.2.1 m.toNat
    (by have := ev_len hv; omega) m2.toNat (by have := ev_len hv; omega)
    ⟨by omega, by rw [hcm, hcm2]; exact h3,
      fun r hr1 hr2 => by
        rw [hcm]
        exact h4 r (by rwa [hcm] at hr2) (by omega)⟩
  rwa [hcm, hcm2] at this

theorem ev_downR {C : Esa} (hv : EsaValid C) (m j : ℤ) (h0 : 1 ≤ m)
    (h1 : m < j) (h2 : j < C.len)
    (h3 : ∀ r : ℤ, m < r → r ≤ j → geti C.LCP m < geti C.LCP r)
    (h4 : j = C.len - 1 ∨ geti C.LCP (j + 1) < geti C.LCP m) :
    isFli C m j (geti C.CLD m) := by
  have hcm : ((m.toNat : ℕ) : ℤ) = m := Int.toNat_of_nonneg (by omega)
  have hcj : ((j.toNat : ℕ) : ℤ) = j := Int.toNat_of_nonneg (by omega)
  have := hv.2.2.2.2.2.2.2.2.2.2.2.2.2.1 m.toNat (by omega)
    (by have := ev_len hv; omega) j.toNat (by have := ev_len hv; omega)
    (by omega)
    (fun r hr1 hr2 => by
      rw [hcm]
      exact h3 r (by rwa [hcm] at hr2) (by omega))
    (by rw [hcm, hcj]; exact h4)
  rwa [hcm, hcj] at this

theorem ev_downL {C : Esa} (hv : EsaValid C) (p m : ℤ) (h0 : 0 ≤ p)
    (h1 : p < C.len) (h2 : m ≤ C.len) (h3 : p < m - 1)
    (h4 : geti C.LCP p ≤ geti C.LCP m)
    (h5 : ∀ r : ℤ, p < r → r < m → geti C.LCP m < geti C.LCP r) :
    isFli C p (m - 1) (geti C.CLD (m - 1)) := by
  have hcp : ((p.toNat : ℕ) : ℤ) = p := Int.toNat_of_nonneg h0
  have hcm : ((m.toNat : ℕ) : ℤ) = m := Int.toNat_of_nonneg (by omega)
  have := hv.2.2.2.2.2.2.2.2.2.2.2.2.2.2 p.toNat
    (by have := ev_len hv; omega) m.toNat (by have := ev_len hv; omega)
    (by omega) (by rw [hcp, hcm]; exact h4)
    (fun r hr1 hr2 => by
      rw [hcm]
      exact h5 r (by rwa [hcp] at hr2) (by omega))
  rwa [hcp, hcm] at this

theorem isFli_min {C : Esa} {i j m : ℤ} (h : isFli C i j m) (hi : 0 ≤ i) :
    ∀ r : ℤ, i < r → r ≤ j → geti C.LCP m ≤ geti C.LCP r := by
  intro r hr1 hr2
  have h0 : 0 ≤ r := le_trans hi (le_of_lt hr1)
  have hc : ((r.toNat : ℕ) : ℤ) = r := Int.toNat_of_nonneg h0
  have := h.2.2.1 r.toNat (by omega) (by omega)
  rwa [hc] at this

theorem isFli_first {C : Esa} {i j m : ℤ} (h : isFli C i j m) (hi : 0 ≤ i) :
    ∀ r : ℤ, i < r → r < m → geti C.LCP m < geti C.LCP r := by
  intro r hr1 hr2
  have h0 : 0 ≤ r := le_trans hi (le_of_lt hr1)
  have hc : ((r.toNat : ℕ) : ℤ) = r := Int.toNat_of_nonneg h0
  have := h.2.2.2 r.toNat (by omega) (by omega)
  rwa [hc] at this

/-- A read of `S` at a nonnegative out-of-bounds position is the NUL
terminator, and an in-bounds read is not NUL. -/
theorem gets_default {C : Esa} (hv : EsaValid C) (q : ℤ) (h0 : 0 ≤ q)
    (h1 : C.len ≤ q) : gets C.s q = '\x00' := by
  have := ev_len hv
  unfold gets
  exact List.getD_eq_default _ _ (by omega)

theorem gets_ne_nul {C : Esa} (hv : EsaValid C) (q : ℤ) (h0 : 0 ≤ q)
    (h1 : q < C.len) : gets C.s q ≠ '\x00' := by
  have hlen := ev_len hv
  have hmem : C.s.getD q.toNat '\x00' ∈ C.s := by
    rw [List.getD_eq_getElem C.s '\x00' (by omega)]
    exact List.getElem_mem _
  exact ev_nul hv _ hmem

theorem gets_nul_split {C : Esa} (hv : EsaValid C) (q : ℤ) (h0 : 0 ≤ q) :
    (q < C.len ∧ gets C.s q ≠ '\x00') ∨ (C.len ≤ q ∧ gets C.s q = '\x00') := by
  by_cases h : q < C.len
  · exact Or.inl ⟨h, gets_ne_nul hv q h0 h⟩
  · exact Or.inr ⟨by omega, gets_default hv q h0 (by omega)⟩

/-- Suffixes `r1` and `r2` agree at depth `d` whenever every `LCP` value
on `(r1, r2]` exceeds `d` (chaining the adjacent-lcp facts). -/
theorem sharedChainAux {C : Esa} (hv : EsaValid C) :
    ∀ t : ℕ, ∀ r1 r2 d : ℤ, 0 ≤ r1 → r1 ≤ r2 → r2 < C.len → r2 - r1 = t →
      (∀ r : ℤ, r1 < r → r ≤ r2 → d < geti C.LCP r) → 0 ≤ d →
      gets C.s (geti C.SA r1 + d) = gets C.s (geti C.SA r2 + d) := by
  intro t
  induction t with
  | zero =>
    intro r1 r2 d _ _ _ ht _ _
    have : r1 = r2 := by omega
    rw [this]
  | succ t IH =>
    intro r1 r2 d h0 h1 h2 ht hmin hd
    have hstep : gets C.s (geti C.SA (r2 - 1) + d) = gets C.s (geti C.SA r2 + d) :=
      ev_LCPeq hv r2 (by omega) h2 d hd (hmin r2 (by omega) le_rfl)
    have hIH := IH r1 (r2 - 1) d h0 (by omega) (by omega) (by omega)
      (fun r hr1 hr2 => hmin r hr1 (by omega)) hd
    rw [hIH, hstep]

/-- Suffixes of an interval share the characters below its `LCP` floor. -/
theorem sharedChain {C : Esa} (hv : EsaValid C) (r1 r2 d : ℤ)
    (h0 : 0 ≤ r1) (h1 : r1 ≤ r2) (h2 : r2 < C.len)
    (hmin : ∀ r : ℤ, r1 < r → r ≤ r2 → d < geti C.LCP r) (hd : 0 ≤ d) :
    gets C.s (geti C.SA r1 + d) = gets C.s (geti C.SA r2 + d) :=
  sharedChainAux hv (r2 - r1).toNat r1 r2 d h0 h1 h2 (by omega) hmin hd

/-- The state invariant of the traversed lcp-interval `[i0, j0]`: depth
`l0`, first l-index `m0`, floor `l0` on `(i0, j0]` with strict drops just
outside both ends (or the text ends). -/
def ParentInter (C : Esa) (i0 j0 l0 m0 : ℤ) : Prop :=
  0 ≤ i0 ∧ i0 < j0 ∧ j0 ≤ C.len - 1 ∧ 0 ≤ l0 ∧
  geti C.LCP i0 < l0 ∧
  (∀ r : ℤ, i0 < r → r ≤ j0 → l0 ≤ geti C.LCP r) ∧
  (j0 = C.len - 1 ∨ geti C.LCP (j0 + 1) < l0) ∧
  i0 < m0 ∧ m0 ≤ j0 ∧ geti C.LCP m0 = l0 ∧
  (∀ r : ℤ, i0 < r → r < m0 → l0 < geti C.LCP r)

/-- What a successful `get_interval` on `[i0, j0]` at depth `l0` returns:
a sub-interval of suffixes all carrying `a` at depth `l0`, which is
either a singleton or again a valid lcp-interval of strictly larger
depth. -/
def GoodChild (C : Esa) (i0 j0 l0 : ℤ) (a : Char) (R : LcpInter) : Prop :=
  i0 ≤ R.i ∧ 0 ≤ R.i ∧ R.i ≤ R.j ∧ R.j ≤ j0 ∧
  (∀ r : ℤ, R.i ≤ r → r ≤ R.j → gets C.s (geti C.SA r + l0) = a) ∧
  (R.i < R.j → l0 < R.l ∧ ParentInter C R.i R.j R.l R.m)

/-- Correctness of the child-walk `giLoop` on a valid ESA: from any
walk state it either returns the failure sentinel or a `GoodChild`. -/
theorem giLoop_good {C : Esa} (hv : EsaValid C) (ij : LcpInter) (a : Char)
    (hP : ParentInter C ij.i ij.j ij.l ij.m) :
    ∀ fuel : ℕ, ∀ i m : ℤ, ∀ c : Char,
      ij.i ≤ i → i < m → m ≤ ij.j →
      (i = ij.i ∨ geti C.LCP i = ij.l) →
      geti C.LCP m = ij.l →
      (∀ r : ℤ, i < r → r < m → ij.l < geti C.LCP r) →
      c = gets C.s (geti C.SA i + ij.l) →
      ((giLoop C ij a fuel i m c).i = -1 ∧ (giLoop C ij a fuel i m c).j = -1) ∨
        GoodChild C ij.i ij.j ij.l a (giLoop C ij a fuel i m c) := by
  obtain ⟨hP1, hP2, hP3, hP4, hP5, hP6, hP7, hP8, hP9, hP10, hP11⟩ := hP
  intro fuel
  induction fuel with
  | zero =>
    intro i m c _ _ _ _ _ _ _
    exact Or.inl ⟨rfl, rfl⟩
  | succ fuel IH =>
    intro i m c hi1 him hmj hior hm hbet hc
    have hi0 : 0 ≤ i := le_trans hP1 hi1
    simp only [giLoop]
    by_cases hca : c = a
    · rw [if_pos hca]
      right
      dsimp only [GoodChild, ParentInter]
      have hchars : ∀ r : ℤ, i ≤ r → r ≤ m - 1 →
          gets C.s (geti C.SA r + ij.l) = a := by
        intro r hr1 hr2
        have := sharedChain hv i r ij.l hi0 hr1 (by omega)
          (fun r' h1 h2 => hbet r' h1 (by omega)) hP4
        rw [← this, ← hc]
        exact hca
      refine ⟨hi1, hi0, by omega, by omega, hchars, ?_⟩
      intro hlt
      have hle : geti C.LCP i ≤ geti C.LCP m := by
        rcases hior with h | h
        · rw [h, hm]; omega
        · rw [h, hm]
      have hfli := ev_downL hv i m hi0 (by omega) (by omega) hlt hle
        (fun r h1 h2 => by rw [hm]; exact hbet r h1 h2)
      have hmin := isFli_min hfli hi0
      have hfirst := isFli_first hfli hi0
      have hn1 : i < geti C.CLD (m - 1) := hfli.1
      have hn2 : geti C.CLD (m - 1) ≤ m - 1 := hfli.2.1
      have hl2 : ij.l < geti C.LCP (geti C.CLD (m - 1)) :=
        hbet _ hn1 (by omega)
      refine ⟨hl2, hi0, hlt, by omega, by omega, ?_, hmin, ?_, hn1, hn2, rfl,
        hfirst⟩
      · rcases hior with h | h
        · rw [h]; omega
        · rw [h]; omega
      · right
        have hm1 : m - 1 + 1 = m := by omega
        rw [hm1, hm]
        exact hl2
    · rw [if_neg hca]
      by_cases hsv : sval a < sval c
      · rw [if_pos hsv]
        left
        have hchk : (if i ≠ ij.i then gets C.FVC i
            else gets C.s (geti C.SA i + ij.l)) = c := by
          by_cases hii : i = ij.i
          · rw [if_neg (by simp [hii])]
            exact hc.symm
          · rw [if_pos hii]
            have hl : geti C.LCP i = ij.l := hior.resolve_left hii
            rw [ev_FVC hv i (by omega) (by omega), hl]
            exact hc.symm
        rw [giFinal, hchk, if_neg hca]
        exact ⟨rfl, rfl⟩
      · rw [if_neg hsv]
        by_cases hmj2 : m = ij.j
        · rw [if_pos hmj2]
          have hm0 : 0 < m := by omega
          have hchk : (if m ≠ ij.i then gets C.FVC m
              else gets C.s (geti C.SA m + ij.l)) =
              gets C.s (geti C.SA m + ij.l) := by
            rw [if_pos (by omega), ev_FVC hv m hm0 (by omega), hm]
          rw [giFinal, hchk]
          by_cases hma : gets C.s (geti C.SA m + ij.l) = a
          · rw [if_pos hma]
            right
            dsimp only [GoodChild, ParentInter]
            refine ⟨by omega, by omega, by omega, le_rfl, ?_, ?_⟩
            · intro r hr1 hr2
              have : r = m := by omega
              rw [this]
              exact hma
            · intro h
              exact absurd hmj2 (by omega)
          · rw [if_neg hma]
            exact Or.inl ⟨rfl, rfl⟩
        · rw [if_neg hmj2]
          have hmlt : m < ij.j := by omega
          by_cases hg : geti C.LCP (geti C.CLD m) = ij.l
          · rw [if_pos hg]
            have hex : ∃ r : ℤ, (m < r ∧ r ≤ ij.j) ∧ geti C.LCP r = ij.l := by
              by_contra hno
              push_neg at hno
              have hgt : ∀ r : ℤ, m < r → r ≤ ij.j → ij.l < geti C.LCP r := by
                intro r h1 h2
                have ha := hP6 r (by omega) h2
                have hb := hno r ⟨h1, h2⟩
                omega
              have hfli := ev_downR hv m ij.j (by omega) hmlt (by omega)
                (fun r h1 h2 => by rw [hm]; exact hgt r h1 h2)
                (by rw [hm]; exact hP7)
              have hk := hgt (geti C.CLD m) hfli.1 hfli.2.1
              omega
            letI : DecidablePred fun r : ℤ =>
                (m < r ∧ r ≤ ij.j) ∧ geti C.LCP r = ij.l :=
              fun _ => Classical.propDecidable _
            obtain ⟨r0, ⟨⟨hr1, hr2⟩, hr3⟩, hleast⟩ :=
              Int.exists_least_of_bdd ⟨m + 1, fun z hz => by omega⟩ hex
            have hbet2 : ∀ r : ℤ, m < r → r < r0 → ij.l < geti C.LCP r := by
              intro r h1 h2
              have ha := hP6 r (by omega) (by omega)
              rcases lt_or_eq_of_le ha with h | h
              · exact h
              · exact absurd (hleast r ⟨⟨h1, by omega⟩, h.symm⟩) (by omega)
            have hcld : geti C.CLD m = r0 :=
              ev_next hv m r0 (by omega) (by omega) hr1
                (by rw [hm]; exact hr3)
                (fun r h1 h2 => by rw [hm]; exact hbet2 r h1 h2)
            rw [hcld]
            have hfvc : gets C.FVC m = gets C.s (geti C.SA m + ij.l) := by
              rw [ev_FVC hv m (by omega) (by omega), hm]
            exact IH m r0 (gets C.FVC m) (by omega) hr1 hr2 (Or.inr hm) hr3
              hbet2 hfvc
          · rw [if_neg hg]
            have hgt : ∀ r : ℤ, m < r → r ≤ ij.j → ij.l < geti C.LCP r := by
              by_contra hno
              push_neg at hno
              obtain ⟨r, h1, h2, h3⟩ := hno
              have heq : geti C.LCP r = ij.l := by
                have := hP6 r (by omega) h2
                omega
              have hex : ∃ r : ℤ, (m < r ∧ r ≤ ij.j) ∧ geti C.LCP r = ij.l :=
                ⟨r, ⟨h1, h2⟩, heq⟩
              letI : DecidablePred fun r : ℤ =>
                  (m < r ∧ r ≤ ij.j) ∧ geti C.LCP r = ij.l :=
                fun _ => Classical.propDecidable _
              obtain ⟨r0, ⟨⟨hr1, hr2⟩, hr3⟩, hleast⟩ :=
                Int.exists_least_of_bdd ⟨m + 1, fun z hz => by omega⟩ hex
              have hbet2 : ∀ r' : ℤ, m < r' → r' < r0 →
                  ij.l < geti C.LCP r' := by
                intro r' ha1 ha2
                have ha := hP6 r' (by omega) (by omega)
                rcases lt_or_eq_of_le ha with h | h
                · exact h
                · exact absurd (hleast r' ⟨⟨ha1, by omega⟩, h.symm⟩) (by omega)
              have hcld : geti C.CLD m = r0 :=
                ev_next hv m r0 (by omega) (by omega) hr1
                  (by rw [hm]; exact hr3)
                  (fun r' ha1 ha2 => by rw [hm]; exact hbet2 r' ha1 ha2)
              rw [hcld] at hg
              exact hg hr3
            have hfli := ev_downR hv m ij.j (by omega) hmlt (by omega)
              (fun r h1 h2 => by rw [hm]; exact hgt r h1 h2)
              (by rw [hm]; exact hP7)
            have hl2 : ij.l < geti C.LCP (geti C.CLD m) :=
              hgt _ hfli.1 hfli.2.1
            have hm0 : 0 < m := by omega
            have hchk : (if m ≠ ij.i then gets C.FVC m
                else gets C.s (geti C.SA m + ij.l)) =
                gets C.s (geti C.SA m + ij.l) := by
              rw [if_pos (by omega), ev_FVC hv m hm0 (by omega), hm]
            rw [giFinal, hchk]
            by_cases hma : gets C.s (geti C.SA m + ij.l) = a
            · rw [if_pos hma]
              right
              dsimp only [GoodChild, ParentInter]
              have hmin := isFli_min hfli (by omega)
              have hfirst := isFli_first hfli (by omega)
              have hchars : ∀ r : ℤ, m ≤ r → r ≤ ij.j →
                  gets C.s (geti C.SA r + ij.l) = a := by
                intro r hx1 hx2
                have := sharedChain hv m r ij.l (by omega) hx1 (by omega)
                  (fun r' h1 h2 => hgt r' h1 (by omega)) hP4
                rw [← this]
                exact hma
              refine ⟨by omega, by omega, le_of_lt hmlt, le_rfl, hchars, ?_⟩
              intro _
              refine ⟨hl2, by omega, hmlt, hP3, by omega, by rw [hm]; exact hl2,
                hmin, ?_, hfli.1, hfli.2.1, rfl, hfirst⟩
              rcases hP7 with h | h
              · exact Or.inl h
              · exact Or.inr (by omega)
            · rw [if_neg hma]
              exact Or.inl ⟨rfl, rfl⟩

/-- `get_interval` on a valid lcp-interval either fails or returns a
`GoodChild`. -/
theorem get_interval_good {C : Esa} (hv : EsaValid C) (ij : LcpInter)
    (a : Char) (hP : ParentInter C ij.i ij.j ij.l ij.m) :
    ((get_interval C ij a).i = -1 ∧ (get_interval C ij a).j = -1) ∨
      GoodChild C ij.i ij.j ij.l a (get_interval C ij a) := by
  obtain ⟨h1, h2, h3, h4, h5, h6, h7, h8, h9, h10, h11⟩ := hP
  have hne : ¬(ij.i = ij.j) := by omega
  rw [get_interval, if_neg hne]
  exact giLoop_good hv ij a ⟨h1, h2, h3, h4, h5, h6, h7, h8, h9, h10, h11⟩ _
    ij.i ij.m _ le_rfl h8 h9 (Or.inl rfl) h10 h11 rfl

/-- When `get_interval` fails on a non-singleton interval, the first
suffix of the interval does not carry `a` at the interval depth (the walk
rejects its first child before anything else). -/
theorem get_interval_fail_char {C : Esa} (ij : LcpInter) (a : Char)
    (hne : ij.i ≠ ij.j) (hi0 : 0 ≤ ij.i)
    (hfail : (get_interval C ij a).i = -1) :
    gets C.s (geti C.SA ij.i + ij.l) ≠ a := by
  intro hctr
  rw [get_interval, if_neg hne] at hfail
  simp only [giLoop] at hfail
  rw [if_pos hctr] at hfail
  dsimp only at hfail
  omega

/-- The early return of the match-extension loop: a mismatch position
with all earlier positions matching. -/
theorem gmExt_inl_spec (C : Esa) (query : List Char) (res : LcpInter)
    (p l : ℤ) : ∀ k out, gmExt C query res p l k = Sum.inl out →
    out.i = res.i ∧ out.j = res.j ∧ k ≤ out.l ∧ out.l < l ∧
    (∀ d : ℤ, k ≤ d → d < out.l →
      gets C.s (p + d) = query.getD d.toNat '\x00') ∧
    gets C.s (p + out.l) ≠ query.getD out.l.toNat '\x00' := by
  intro k
  induction k using gmExt.induct C query res p l with
  | case1 k h1 h2 =>
    intro out hout
    rw [gmExt, dif_pos h1, if_pos h2] at hout
    cases hout
    refine ⟨rfl, rfl, le_rfl, h1, ?_, h2⟩
    intro d hd1 hd2
    dsimp only at hd2
    omega
  | case2 k h1 h2 ih =>
    intro out hout
    rw [gmExt, dif_pos h1, if_neg h2] at hout
    obtain ⟨e1, e2, e3, e4, e5, e6⟩ := ih out hout
    have heq : gets C.s (p + k) = query.getD k.toNat '\x00' := not_not.mp h2
    refine ⟨e1, e2, by omega, e4, ?_, e6⟩
    intro d hd1 hd2
    rcases eq_or_lt_of_le hd1 with h | h
    · rw [← h]
      exact heq
    · exact e5 d (by omega) hd2
  | case3 k h1 =>
    intro out hout
    rw [gmExt, dif_neg h1] at hout
    cases hout

/-- The fall-through of the match-extension loop: every position up to
the bound matches. -/
theorem gmExt_inr_spec (C : Esa) (query : List Char) (res : LcpInter)
    (p l : ℤ) : ∀ k k2, gmExt C query res p l k = Sum.inr k2 →
    (k < l → k2 = l ∧ ∀ d : ℤ, k ≤ d → d < l →
      gets C.s (p + d) = query.getD d.toNat '\x00') ∧
    (l ≤ k → k2 = k) := by
  intro k
  induction k using gmExt.induct C query res p l with
  | case1 k h1 h2 =>
    intro k2 hout
    rw [gmExt, dif_pos h1, if_pos h2] at hout
    cases hout
  | case2 k h1 h2 ih =>
    intro k2 hout
    rw [gmExt, dif_pos h1, if_neg h2] at hout
    obtain ⟨r1, r2⟩ := ih k2 hout
    have heq : gets C.s (p + k) = query.getD k.toNat '\x00' := not_not.mp h2
    refine ⟨fun _ => ?_, fun hcon => absurd hcon (by omega)⟩
    by_cases hkl : k + 1 < l
    · obtain ⟨ra, rb⟩ := r1 hkl
      refine ⟨ra, ?_⟩
      intro d hd1 hd2
      rcases eq_or_lt_of_le hd1 with h | h
      · rw [← h]
        exact heq
      · exact rb d (by omega) hd2
    · have hl1 : l = k + 1 := by omega
      have hk2 := r2 (by omega)
      refine ⟨by omega, ?_⟩
      intro d hd1 hd2
      have hdk : d = k := by omega
      rw [hdk]
      exact heq
  | case3 k h1 =>
    intro k2 hout
    rw [gmExt, dif_neg h1] at hout
    cases hout
    exact ⟨fun h => absurd h h1, fun _ => rfl⟩

/-- The three clauses of claim C1 about a returned interval: (a) the
query matches suffix `SA[i]` up to depth `l`; (b) the match stopped at
the query end, at a mismatch, or at the subject terminator; (c) every
suffix of `SA[i..j]` carries the matched prefix. -/
def MatchRes (C : Esa) (query : List Char) (qlen : ℕ) (R : LcpInter) : Prop :=
  (∀ d : ℤ, 0 ≤ d → d < R.l →
    gets C.s (geti C.SA R.i + d) = query.getD d.toNat '\x00') ∧
  (R.l = (qlen : ℤ) ∨
    query.getD R.l.toNat '\x00' ≠ gets C.s (geti C.SA R.i + R.l) ∨
    gets C.s (geti C.SA R.i + R.l) = '\x00') ∧
  (∀ r : ℤ, R.i ≤ r → r ≤ R.j → ∀ d : ℤ, 0 ≤ d → d < R.l →
    gets C.s (geti C.SA r + d) = query.getD d.toNat '\x00')

/-- Correctness of the main loop of `get_match_from` when it is entered
at a depth equal to the interval depth (which holds whenever the root
interval has depth `0`, and at every later iteration). -/
theorem gmLoop_spec {C : Esa} (hv : EsaValid C) (query : List Char)
    (qlen : ℕ) :
    ∀ fuel : ℕ, ∀ (k : ℤ) (ij res : LcpInter),
      (qlen : ℤ) - k < fuel → 0 ≤ k → k ≤ (qlen : ℤ) → k = ij.l →
      ParentInter C ij.i ij.j ij.l ij.m →
      res.i = ij.i → res.j = ij.j →
      (∀ r : ℤ, ij.i ≤ r → r ≤ ij.j → ∀ d : ℤ, 0 ≤ d → d < k →
        gets C.s (geti C.SA r + d) = query.getD d.toNat '\x00') →
      MatchRes C query qlen (gmLoop C query qlen fuel k ij res) := by
  intro fuel
  induction fuel with
  | zero =>
    intro k ij res hfuel hk0 hk1 _ _ _ _ _
    exact absurd hfuel (by omega)
  | succ fuel IH =>
    intro k ij res hfuel hk0 hk1 hkl hP hresi hresj hmatched
    have hPlen := hP.2.2.1
    have hPi0 := hP.1
    have hPij := hP.2.1
    simp only [gmLoop]
    obtain hfail | hgood := get_interval_good hv ij (query.getD k.toNat '\x00') hP
    · rw [if_pos hfail]
      dsimp only [MatchRes]
      rw [hresi, hresj]
      refine ⟨?_, ?_, ?_⟩
      · intro d hd0 hd1
        exact hmatched ij.i le_rfl (by omega) d hd0 hd1
      · by_cases hq : k = (qlen : ℤ)
        · exact Or.inl hq
        · refine Or.inr (Or.inl ?_)
          have hfc := get_interval_fail_char ij (query.getD k.toNat '\x00')
            (by omega) hPi0 hfail.1
          rw [hkl] at hfc
          rw [hkl]
          exact Ne.symm hfc
      · intro r h1 h2
        exact hmatched r h1 h2
    · obtain ⟨hg1, hg2, hg3, hg4, hg5, hg6⟩ := hgood
      rw [if_neg (by intro hcon; exact absurd hcon.1 (by omega))]
      set ij2 := get_interval C ij (query.getD k.toNat '\x00') with hij2
      have hchark : ∀ r : ℤ, ij2.i ≤ r → r ≤ ij2.j →
          gets C.s (geti C.SA r + k) = query.getD k.toNat '\x00' := by
        intro r u1 u2
        have hx := hg5 r u1 u2
        rw [← hkl] at hx
        exact hx
      have hsub : ij2.j ≤ ij.j := hg4
      have hshared : ij2.i < ij2.j → ∀ r : ℤ, ij2.i ≤ r → r ≤ ij2.j →
          ∀ d : ℤ, 0 ≤ d → d < ij2.l →
          gets C.s (geti C.SA r + d) = gets C.s (geti C.SA ij2.i + d) := by
        intro hlt r u1 u2 d u3 u4
        obtain ⟨_, hgP⟩ := hg6 hlt
        exact (sharedChain hv ij2.i r d hgP.1 u1 (by omega)
          (fun r2 w1 w2 => lt_of_lt_of_le u4
            (hgP.2.2.2.2.2.1 r2 w1 (le_trans w2 u2))) u3).symm
      by_cases hsplit : ij2.i < ij2.j ∧ ij2.l < (qlen : ℤ)
      · rw [if_pos hsplit]
        obtain ⟨hgl, hgP⟩ := hg6 hsplit.1
        have hkk : k < ij2.l := by rw [hkl]; exact hgl
        rcases hE : gmExt C query {res with i := ij2.i, j := ij2.j}
            (geti C.SA ij2.i) ij2.l (k + 1) with out | k2
        · show MatchRes C query qlen out
          obtain ⟨e1, e2, e3, e4, e5, e6⟩ := gmExt_inl_spec C query _ _ _ _ out hE
          have e1c : out.i = ij2.i := e1
          have e2c : out.j = ij2.j := e2
          refine ⟨?_, ?_, ?_⟩
          · intro d hd0 hd1
            rw [e1c]
            rcases lt_trichotomy d k with h | h | h
            · exact hmatched ij2.i hg1 (by omega) d hd0 h
            · rw [h]
              exact hchark ij2.i le_rfl (by omega)
            · exact e5 d (by omega) hd1
          · refine Or.inr (Or.inl ?_)
            rw [e1c]
            exact Ne.symm e6
          · intro r h1 h2 d hd0 hd1
            rw [e1c] at h1
            rw [e2c] at h2
            rcases lt_trichotomy d k with h | h | h
            · exact hmatched r (le_trans hg1 h1) (le_trans h2 hsub) d hd0 h
            · rw [h]
              exact hchark r h1 h2
            · rw [hshared hsplit.1 r h1 h2 d hd0 (by omega)]
              exact e5 d (by omega) hd1
        · show MatchRes C query qlen (if k2 < (qlen : ℤ) then
            gmLoop C query qlen fuel k2 ij2 {res with i := ij2.i, j := ij2.j}
            else {{res with i := ij2.i, j := ij2.j} with l := (qlen : ℤ)})
          obtain ⟨r1, r2⟩ := gmExt_inr_spec C query _ _ _ _ k2 hE
          have hra : k2 = ij2.l := by
            rcases lt_or_le (k + 1) ij2.l with h | h
            · exact (r1 h).1
            · have := r2 h
              omega
          have hrb : ∀ d : ℤ, k + 1 ≤ d → d < ij2.l →
              gets C.s (geti C.SA ij2.i + d) = query.getD d.toNat '\x00' := by
            rcases lt_or_le (k + 1) ij2.l with h | h
            · exact (r1 h).2
            · intro d hd1 hd2
              omega
          rw [if_pos (by omega : k2 < (qlen : ℤ))]
          apply IH k2 ij2 {res with i := ij2.i, j := ij2.j} (by omega) (by omega)
            (by omega) hra hgP rfl rfl
          intro r h1 h2 d hd0 hd1
          rcases lt_trichotomy d k with h | h | h
          · exact hmatched r (le_trans hg1 h1) (le_trans h2 hsub) d hd0 h
          · rw [h]
            exact hchark r h1 h2
          · rw [hshared hsplit.1 r h1 h2 d hd0 (by omega)]
            exact hrb d (by omega) (by omega)
      · rw [if_neg hsplit]
        rcases hE : gmExt C query {res with i := ij2.i, j := ij2.j}
            (geti C.SA ij2.i) ((qlen : ℕ) : ℤ) (k + 1) with out | k2
        · show MatchRes C query qlen out
          obtain ⟨e1, e2, e3, e4, e5, e6⟩ := gmExt_inl_spec C query _ _ _ _ out hE
          have e1c : out.i = ij2.i := e1
          have e2c : out.j = ij2.j := e2
          refine ⟨?_, ?_, ?_⟩
          · intro d hd0 hd1
            rw [e1c]
            rcases lt_trichotomy d k with h | h | h
            · exact hmatched ij2.i hg1 (by omega) d hd0 h
            · rw [h]
              exact hchark ij2.i le_rfl (by omega)
            · exact e5 d (by omega) hd1
          · refine Or.inr (Or.inl ?_)
            rw [e1c]
            exact Ne.symm e6
          · intro r h1 h2 d hd0 hd1
            rw [e1c] at h1
            rw [e2c] at h2
            rcases lt_trichotomy d k with h | h | h
            · exact hmatched r (le_trans hg1 h1) (le_trans h2 hsub) d hd0 h
            · rw [h]
              exact hchark r h1 h2
            · by_cases hlt : ij2.i < ij2.j
              · have hql : (qlen : ℤ) ≤ ij2.l := by
                  by_contra hcon
                  exact hsplit ⟨hlt, by omega⟩
                rw [hshared hlt r h1 h2 d hd0 (by omega)]
                exact e5 d (by omega) hd1
              · have hre : r = ij2.i := by omega
                rw [hre]
                exact e5 d (by omega) hd1
        · show MatchRes C query qlen (if k2 < (qlen : ℤ) then
            gmLoop C query qlen fuel k2 ij2 {res with i := ij2.i, j := ij2.j}
            else {{res with i := ij2.i, j := ij2.j} with l := (qlen : ℤ)})
          obtain ⟨r1, r2⟩ := gmExt_inr_spec C query _ _ _ _ k2 hE
          have hk2 : (qlen : ℤ) ≤ k2 := by
            rcases lt_or_le (k + 1) ((qlen : ℕ) : ℤ) with h | h
            · have := (r1 h).1
              omega
            · have := r2 h
              omega
          rw [if_neg (by omega : ¬(k2 < (qlen : ℤ)))]
          dsimp only [MatchRes]
          refine ⟨?_, Or.inl rfl, ?_⟩
          · intro d hd0 hd1
            rcases lt_trichotomy d k with h | h | h
            · exact hmatched ij2.i hg1 (by omega) d hd0 h
            · rw [h]
              exact hchark ij2.i le_rfl (by omega)
            · rcases lt_or_le (k + 1) ((qlen : ℕ) : ℤ) with hq | hq
              · exact (r1 hq).2 d (by omega) hd1
              · omega
          · intro r h1 h2 d hd0 hd1
            rcases lt_trichotomy d k with h | h | h
            · exact hmatched r (le_trans hg1 h1) (le_trans h2 hsub) d hd0 h
            · rw [h]
              exact hchark r h1 h2
            · by_cases hlt : ij2.i < ij2.j
              · have hql : (qlen : ℤ) ≤ ij2.l := by
                  by_contra hcon
                  exact hsplit ⟨hlt, by omega⟩
                rw [hshared hlt r h1 h2 d hd0 (by omega)]
                rcases lt_or_le (k + 1) ((qlen : ℕ) : ℤ) with hq | hq
                · exact (r1 hq).2 d (by omega) hd1
                · omega
              · have hre : r = ij2.i := by omega
                rw [hre]
                rcases lt_or_le (k + 1) ((qlen : ℕ) : ℤ) with hq | hq
                · exact (r1 hq).2 d (by omega) hd1
                · omega

/-- `get_match` on a single-character subject satisfies the claim: the
root interval is the singleton `[0, 0]` and `singletonExt` compares the
query byte-by-byte against the one suffix. -/
theorem get_match_len1 {C : Esa} (hv : EsaValid C) (h1 : C.len = 1)
    (query : List Char) (qlen : ℕ) :
    MatchRes C query qlen (get_match C query qlen) := by
  have hslen : C.s.length = 1 := by
    have := ev_len hv
    omega
  obtain ⟨c, hc⟩ := List.length_eq_one.mp hslen
  have hcnul : c ≠ '\x00' :=
    ev_nul hv c (by rw [hc]; exact List.mem_singleton_self c)
  have hSA0 : geti C.SA 0 = 0 := by
    have := ev_SA hv 0 le_rfl (by omega)
    omega
  have hgets0 : ∀ z : ℤ, z ≤ 0 → gets C.s z = c := by
    intro z hz
    unfold gets
    rw [hc]
    have hz0 : z.toNat = 0 := by omega
    rw [hz0]
    rfl
  have hgets1 : ∀ z : ℤ, 1 ≤ z → gets C.s z = '\x00' := by
    intro z hz
    unfold gets
    exact List.getD_eq_default _ _ (by omega)
  have h0 := ev_LCP0 hv
  have hn := ev_LCPn hv
  rw [h1] at hn
  have hLCPlen := ev_LCPlen hv
  have hL : ∀ z : ℤ, geti C.LCP z = -1 ∨ geti C.LCP z = 0 := by
    intro z
    by_cases hz2 : 2 ≤ z.toNat
    · right
      unfold geti
      exact List.getD_eq_default _ _ (by omega)
    · by_cases hz1 : z.toNat = 1
      · left
        unfold geti at hn ⊢
        rw [hz1]
        simpa using hn
      · left
        have hz0 : z.toNat = 0 := by omega
        unfold geti at h0 ⊢
        rw [hz0]
        simpa using h0
  -- the generic singleton evaluation from depth 0
  have main0 : ∀ ij : LcpInter, ij.i = 0 → ij.j = 0 →
      MatchRes C query qlen (singletonExt C query qlen 0 ij 0) := by
    intro ij hi hj
    rw [singletonExt]
    by_cases hql : (0 : ℤ) < (qlen : ℤ)
    · rw [dif_pos ⟨hql, by rw [hgets0 _ (by norm_num)]; exact hcnul⟩]
      by_cases hq0 : gets C.s (0 + 0) ≠ query.getD ((0 : ℤ)).toNat '\x00'
      · rw [if_pos hq0]
        refine ⟨?_, Or.inr (Or.inl ?_), ?_⟩
        · intro d hd0 hd1
          dsimp only at hd1
          omega
        · dsimp only
          rw [hi, hSA0]
          rw [hgets0 _ (by norm_num)] at hq0 ⊢
          exact fun h => hq0 h.symm
        · intro r hr1 hr2 d hd0 hd1
          dsimp only at hd1
          omega
      · rw [if_neg hq0]
        rw [show (0 : ℤ) + 1 = 1 from rfl]
        rw [singletonExt]
        rw [dif_neg (fun hcon => hcon.2 (hgets1 (0 + 1) (by norm_num)))]
        have hmq : c = query.getD 0 '\x00' := by
          rw [hgets0 _ (by norm_num)] at hq0
          exact not_not.mp hq0
        refine ⟨?_, Or.inr (Or.inr ?_), ?_⟩
        · intro d hd0 hd1
          dsimp only at hd1 ⊢
          rw [hi, hSA0]
          have hd : d = 0 := by omega
          rw [hd, hgets0 _ (by norm_num)]
          exact hmq
        · dsimp only
          rw [hi, hSA0]
          exact hgets1 _ (by norm_num)
        · intro r hr1 hr2 d hd0 hd1
          dsimp only at hr1 hr2 hd1 ⊢
          rw [hi] at hr1
          rw [hj] at hr2
          have hr : r = 0 := by omega
          have hd : d = 0 := by omega
          rw [hr, hd, hSA0, hgets0 _ (by norm_num)]
          exact hmq
    · rw [dif_neg (fun hcon => hql hcon.1)]
      refine ⟨?_, Or.inl ?_, ?_⟩
      · intro d hd0 hd1
        dsimp only at hd1
        omega
      · dsimp only
        omega
      · intro r hr1 hr2 d hd0 hd1
        dsimp only at hd1
        omega
  -- unfold get_match down to singletonExt
  simp only [get_match]
  rw [if_neg (by omega : ¬C.len = 0), h1]
  rw [show (1 : ℤ) - 1 = 0 from rfl]
  rw [get_match_from]
  rw [if_neg (by dsimp only; omega)]
  rw [if_pos (by dsimp only)]
  dsimp only
  rw [hSA0]
  rcases hL (geti C.CLD 0) with hx | hx
  · rw [hx]
    -- start depth -1: first comparison happens at clamped index 0
    rw [singletonExt]
    rw [dif_pos ⟨by omega, by rw [hgets0 _ (by norm_num)]; exact hcnul⟩]
    by_cases hq0 : gets C.s (0 + -1) ≠ query.getD ((-1 : ℤ)).toNat '\x00'
    · rw [if_pos hq0]
      refine ⟨?_, Or.inr (Or.inl ?_), ?_⟩
      · intro d hd0 hd1
        dsimp only at hd1
        omega
      · dsimp only
        rw [hSA0]
        rw [hgets0 _ (by norm_num)] at hq0 ⊢
        exact fun h => hq0 h.symm
      · intro r hr1 hr2 d hd0 hd1
        dsimp only at hd1
        omega
    · rw [if_neg hq0]
      rw [show (-1 : ℤ) + 1 = 0 from rfl]
      exact main0 _ rfl rfl
  · rw [hx]
    exact main0 _ rfl rfl
/-- If every adjacent pair of suffixes shares at least one character,
the subject consists of a single repeated character and the whole ESA is
forced: with a positive signed value the suffixes are sorted by
increasing length (`SA[r] = len-1-r`, `LCP[r] = r`), with a negative one
by decreasing length (`SA[r] = r`, `LCP[r] = len-r`). -/
theorem const_struct {C : Esa} (hv : EsaValid C) (h2 : 2 ≤ C.len)
    (hall : ∀ r : ℤ, 0 < r → r < C.len → 1 ≤ geti C.LCP r) :
    (∀ q : ℤ, 0 ≤ q → q < C.len → gets C.s q = gets C.s 0) ∧
    ((0 < sval (gets C.s 0) ∧
      (∀ r : ℤ, 0 ≤ r → r < C.len → geti C.SA r = C.len - 1 - r) ∧
      (∀ r : ℤ, 0 < r → r < C.len → geti C.LCP r = r)) ∨
     (sval (gets C.s 0) < 0 ∧
      (∀ r : ℤ, 0 ≤ r → r < C.len → geti C.SA r = r) ∧
      (∀ r : ℤ, 0 < r → r < C.len → geti C.LCP r = C.len - r))) := by
  have hfc : ∀ r : ℤ, 0 ≤ r → r < C.len →
      gets C.s (geti C.SA r) = gets C.s (geti C.SA 0) := by
    have haux : ∀ t : ℕ, ∀ r : ℤ, r = t → 0 ≤ r → r < C.len →
        gets C.s (geti C.SA r) = gets C.s (geti C.SA 0) := by
      intro t
      induction t with
      | zero =>
        intro r hr _ _
        have hr0 : r = 0 := by omega
        rw [hr0]
      | succ t ih =>
        intro r hr h0 h1
        have hstep := ev_LCPeq hv r (by omega) h1 0 le_rfl
          (by have := hall r (by omega) h1; omega)
        rw [add_zero, add_zero] at hstep
        rw [← hstep]
        exact ih (r - 1) (by omega) (by omega) (by omega)
    intro r h0 h1
    exact haux r.toNat r (by omega) h0 h1
  have hconst : ∀ q : ℤ, 0 ≤ q → q < C.len → gets C.s q = gets C.s 0 := by
    have hq0 : ∀ q : ℤ, 0 ≤ q → q < C.len →
        gets C.s q = gets C.s (geti C.SA 0) := by
      intro q h0 h1
      obtain ⟨r, hr0, hr1, hr2⟩ := ev_surj hv q h0 h1
      rw [← hr2]
      exact hfc r hr0 hr1
    intro q h0 h1
    rw [hq0 q h0 h1, ← hq0 0 le_rfl (by omega)]
  have hchar : ∀ z : ℤ, 0 ≤ z →
      gets C.s z = gets C.s 0 ∨ (C.len ≤ z ∧ gets C.s z = '\x00') := by
    intro z h0
    rcases gets_nul_split hv z h0 with ⟨h, _⟩ | ⟨h, he⟩
    · exact Or.inl (hconst z h0 h)
    · exact Or.inr ⟨h, he⟩
  have hnulnot : gets C.s 0 ≠ '\x00' := gets_ne_nul hv 0 le_rfl (by omega)
  have hc0 : sval '\x00' = 0 := by decide
  have hstep : ∀ r : ℤ, 0 < r → r < C.len →
      (0 < sval (gets C.s 0) ∧ geti C.SA (r - 1) + geti C.LCP r = C.len ∧
        geti C.SA r + geti C.LCP r < C.len) ∨
      (sval (gets C.s 0) < 0 ∧ geti C.SA r + geti C.LCP r = C.len ∧
        geti C.SA (r - 1) + geti C.LCP r < C.len) := by
    intro r h0 h1
    have hlt := ev_LCPlt hv r h0 h1
    have hL1 : 1 ≤ geti C.LCP r := hall r h0 h1
    have hSAr := ev_SA hv r (by omega) h1
    have hSAr1 := ev_SA hv (r - 1) (by omega) (by omega)
    have hp1 : 0 ≤ geti C.SA (r - 1) + geti C.LCP r := by omega
    have hp2 : 0 ≤ geti C.SA r + geti C.LCP r := by omega
    have hsh := ev_LCPeq hv r h0 h1 (geti C.LCP r - 1) (by omega) (by omega)
    rcases hchar _ hp1 with hA | ⟨hA1, hA2⟩
    · rcases hchar _ hp2 with hB | ⟨hB1, hB2⟩
      · rw [hA, hB] at hlt
        exact absurd hlt (lt_irrefl _)
      · right
        rw [hA, hB2] at hlt
        have hposA : geti C.SA (r - 1) + geti C.LCP r < C.len := by
          by_contra hcon
          rw [gets_default hv _ hp1 (by omega)] at hA
          exact hnulnot hA.symm
        have hBexact : geti C.SA r + geti C.LCP r = C.len := by
          by_contra hcon
          have hLs : gets C.s (geti C.SA (r - 1) + (geti C.LCP r - 1)) =
              gets C.s 0 := hconst _ (by omega) (by omega)
          have hRs : gets C.s (geti C.SA r + (geti C.LCP r - 1)) = '\x00' :=
            gets_default hv _ (by omega) (by omega)
          rw [hLs, hRs] at hsh
          exact hnulnot hsh
        exact ⟨by omega, hBexact, hposA⟩
    · rcases hchar _ hp2 with hB | ⟨hB1, hB2⟩
      · left
        rw [hA2, hB] at hlt
        have hposB : geti C.SA r + geti C.LCP r < C.len := by
          by_contra hcon
          rw [gets_default hv _ hp2 (by omega)] at hB
          exact hnulnot hB.symm
        have hAexact : geti C.SA (r - 1) + geti C.LCP r = C.len := by
          by_contra hcon
          have hLs : gets C.s (geti C.SA (r - 1) + (geti C.LCP r - 1)) =
              '\x00' := gets_default hv _ (by omega) (by omega)
          have hRs : gets C.s (geti C.SA r + (geti C.LCP r - 1)) =
              gets C.s 0 := hconst _ (by omega) (by omega)
          rw [hLs, hRs] at hsh
          exact hnulnot hsh.symm
        exact ⟨by omega, hAexact, hposB⟩
      · rw [hA2, hB2] at hlt
        exact absurd hlt (lt_irrefl _)
  refine ⟨hconst, ?_⟩
  rcases lt_trichotomy (sval (gets C.s 0)) 0 with hsgn | hsgn | hsgn
  · -- negative: increasing SA
    right
    have hinc : ∀ r : ℤ, 0 < r → r < C.len →
        geti C.SA (r - 1) < geti C.SA r ∧
        geti C.SA r + geti C.LCP r = C.len := by
      intro r h0 h1
      rcases hstep r h0 h1 with ⟨hpos, _, _⟩ | ⟨_, ha, hb⟩
      · omega
      · exact ⟨by omega, ha⟩
    have hlb : ∀ t : ℕ, ∀ r : ℤ, r = t → 0 ≤ r → r < C.len →
        r ≤ geti C.SA r := by
      intro t
      induction t with
      | zero =>
        intro r hr _ h1
        have hr0 : r = 0 := by omega
        have := ev_SA hv r (by omega) h1
        omega
      | succ t ih =>
        intro r hr h0 h1
        have hd := (hinc r (by omega) h1).1
        have := ih (r - 1) (by omega) (by omega) (by omega)
        omega
    have hub : ∀ t : ℕ, ∀ r : ℤ, C.len - 1 - r = t → 0 ≤ r → r < C.len →
        geti C.SA r ≤ r := by
      intro t
      induction t with
      | zero =>
        intro r hr h0 h1
        have := (ev_SA hv r h0 h1).2
        omega
      | succ t ih =>
        intro r hr h0 h1
        have hd := (hinc (r + 1) (by omega) (by omega)).1
        rw [add_sub_cancel_right] at hd
        have := ih (r + 1) (by omega) (by omega) (by omega)
        omega
    have hSAeq : ∀ r : ℤ, 0 ≤ r → r < C.len → geti C.SA r = r := by
      intro r h0 h1
      have := hlb r.toNat r (by omega) h0 h1
      have := hub (C.len - 1 - r).toNat r (by omega) h0 h1
      omega
    refine ⟨hsgn, hSAeq, ?_⟩
    intro r h0 h1
    have := (hinc r h0 h1).2
    have := hSAeq r (by omega) h1
    omega
  · -- sval = 0 is impossible with at least one adjacent pair
    exfalso
    rcases hstep 1 (by omega) (by omega) with ⟨h, _, _⟩ | ⟨h, _, _⟩ <;> omega
  · -- positive: decreasing SA
    left
    have hdec : ∀ r : ℤ, 0 < r → r < C.len →
        geti C.SA r < geti C.SA (r - 1) ∧
        geti C.SA (r - 1) + geti C.LCP r = C.len := by
      intro r h0 h1
      rcases hstep r h0 h1 with ⟨_, ha, hb⟩ | ⟨hneg, _, _⟩
      · exact ⟨by omega, ha⟩
      · omega
    have hub : ∀ t : ℕ, ∀ r : ℤ, r = t → 0 ≤ r → r < C.len →
        geti C.SA r ≤ C.len - 1 - r := by
      intro t
      induction t with
      | zero =>
        intro r hr _ h1
        have hr0 : r = 0 := by omega
        have := ev_SA hv r (by omega) h1
        omega
      | succ t ih =>
        intro r hr h0 h1
        have hd := (hdec r (by omega) h1).1
        have := ih (r - 1) (by omega) (by omega) (by omega)
        omega
    have hlb : ∀ t : ℕ, ∀ r : ℤ, C.len - 1 - r = t → 0 ≤ r → r < C.len →
        C.len - 1 - r ≤ geti C.SA r := by
      intro t
      induction t with
      | zero =>
        intro r hr h0 h1
        have := (ev_SA hv r h0 h1).1
        omega
      | succ t ih =>
        intro r hr h0 h1
        have hd := (hdec (r + 1) (by omega) (by omega)).1
        rw [add_sub_cancel_right] at hd
        have := ih (r + 1) (by omega) (by omega) (by omega)
        omega
    have hSAeq : ∀ r : ℤ, 0 ≤ r → r < C.len →
        geti C.SA r = C.len - 1 - r := by
      intro r h0 h1
      have := hub r.toNat r (by omega) h0 h1
      have := hlb (C.len - 1 - r).toNat r (by omega) h0 h1
      omega
    refine ⟨hsgn, hSAeq, ?_⟩
    intro r h0 h1
    have := (hdec r h0 h1).2
    have := hSAeq (r - 1) (by omega) (by omega)
    omega

/-- The forced shape of a valid ESA over a one-character alphabet (the
two branches are the two possible signs of the character). -/
def ConstStruct (C : Esa) : Prop :=
  (0 < sval (gets C.s 0) ∧
    (∀ r : ℤ, 0 ≤ r → r < C.len → geti C.SA r = C.len - 1 - r) ∧
    (∀ r : ℤ, 0 < r → r < C.len → geti C.LCP r = r)) ∨
  (sval (gets C.s 0) < 0 ∧
    (∀ r : ℤ, 0 ≤ r → r < C.len → geti C.SA r = r) ∧
    (∀ r : ℤ, 0 < r → r < C.len → geti C.LCP r = C.len - r))

/-- Root `get_interval` step on a constant subject: it either returns a
`GoodChild` of the root or fails, and failure implies the query character
is not the subject character. -/
theorem const_get_interval {C : Esa} (hv : EsaValid C) (h2 : 2 ≤ C.len)
    (hconst : ∀ q : ℤ, 0 ≤ q → q < C.len → gets C.s q = gets C.s 0)
    (hcase : ConstStruct C) (m0 : ℤ)
    (hfli : isFli C 0 (C.len - 1) m0) (a : Char) :
    GoodChild C 0 (C.len - 1) 1 a
      (get_interval C ⟨1, 0, C.len - 1, m0⟩ a) ∨
    ((get_interval C ⟨1, 0, C.len - 1, m0⟩ a).i = -1 ∧
      (get_interval C ⟨1, 0, C.len - 1, m0⟩ a).j = -1 ∧ a ≠ gets C.s 0) := by
  have hcnul : gets C.s 0 ≠ '\x00' := gets_ne_nul hv 0 le_rfl (by omega)
  have hnul0 : sval '\x00' = 0 := by decide
  rw [get_interval]
  rw [if_neg (by dsimp only; omega)]
  dsimp only
  rcases hcase with ⟨hsgn, hSA, hLCP⟩ | ⟨hsgn, hSA, hLCP⟩
  · -- positive sign: SA r = len - 1 - r, LCP r = r, first l-index is 1
    have hm1 : m0 = 1 := by
      have h1r := hLCP 1 (by omega) (by omega)
      have hmo : (0 : ℤ) < m0 := hfli.1
      have hm2 : m0 ≤ C.len - 1 := hfli.2.1
      have hmm := hLCP m0 (by omega) (by omega)
      have := isFli_min hfli le_rfl 1 (by omega) (by omega)
      omega
    subst hm1
    have hc1 : gets C.s (geti C.SA 0 + 1) = '\x00' := by
      rw [hSA 0 le_rfl (by omega)]
      rw [show C.len - 1 - 0 + 1 = C.len by ring]
      exact gets_default hv C.len (by omega) le_rfl
    simp only [giLoop]
    by_cases ha0 : gets C.s (geti C.SA 0 + 1) = a
    · rw [if_pos ha0]
      left
      dsimp only [GoodChild, ParentInter]
      refine ⟨le_rfl, le_rfl, by omega, by omega, ?_, ?_⟩
      · intro r hr1 hr2
        have hr : r = 0 := by omega
        rw [hr]
        exact ha0
      · intro h
        omega
    · rw [if_neg ha0]
      by_cases hsv : sval a < sval (gets C.s (geti C.SA 0 + 1))
      · rw [if_pos hsv]
        rw [giFinal]
        dsimp only
        rw [if_neg (show ¬((0 : ℤ) ≠ 0) from fun h => h rfl)]
        rw [if_neg ha0]
        right
        refine ⟨rfl, rfl, ?_⟩
        intro h
        rw [hc1, hnul0] at hsv
        rw [h] at hsv
        omega
      · rw [if_neg hsv]
        dsimp only
        by_cases hn2 : (1 : ℤ) = C.len - 1
        · rw [if_pos hn2]
          rw [giFinal]
          dsimp only
          rw [if_pos (show (1 : ℤ) ≠ 0 by omega)]
          have hfvc : gets C.FVC 1 = gets C.s 0 := by
            rw [ev_FVC hv 1 (by omega) (by omega), hLCP 1 (by omega) (by omega),
              hSA 1 (by omega) (by omega)]
            rw [show C.len - 1 - 1 + 1 = C.len - 1 by ring]
            exact hconst (C.len - 1) (by omega) (by omega)
          rw [hfvc]
          by_cases hac : gets C.s 0 = a
          · rw [if_pos hac]
            left
            dsimp only [GoodChild, ParentInter]
            refine ⟨by omega, by omega, by omega, le_rfl, ?_, ?_⟩
            · intro r hr1 hr2
              have hr : r = 1 := by omega
              rw [hr, hSA 1 (by omega) (by omega)]
              rw [show C.len - 1 - 1 + 1 = C.len - 1 by ring]
              rw [hconst (C.len - 1) (by omega) (by omega)]
              exact hac
            · intro h
              omega
          · rw [if_neg hac]
            right
            exact ⟨rfl, rfl, fun h => hac h.symm⟩
        · rw [if_neg hn2]
          -- CLD 1 is the first l-index of the last child [1, len-1]
          have hfli2 : isFli C 1 (C.len - 1) (geti C.CLD 1) := by
            apply ev_downR hv 1 (C.len - 1) le_rfl (by omega) (by omega)
            · intro r hr1 hr2
              rw [hLCP 1 (by omega) (by omega), hLCP r (by omega) (by omega)]
              omega
            · exact Or.inl rfl
          have hcld1 : geti C.CLD 1 = 2 := by
            have hx1 : (1 : ℤ) < geti C.CLD 1 := hfli2.1
            have hx2 : geti C.CLD 1 ≤ C.len - 1 := hfli2.2.1
            have hxv := hLCP (geti C.CLD 1) (by omega) (by omega)
            have := isFli_min hfli2 (by omega) 2 (by omega) (by omega)
            have h2v := hLCP 2 (by omega) (by omega)
            omega
          rw [hcld1]
          rw [if_neg (by rw [hLCP 2 (by omega) (by omega)]; omega)]
          rw [giFinal]
          dsimp only
          rw [if_pos (show (1 : ℤ) ≠ 0 by omega)]
          have hfvc : gets C.FVC 1 = gets C.s 0 := by
            rw [ev_FVC hv 1 (by omega) (by omega), hLCP 1 (by omega) (by omega),
              hSA 1 (by omega) (by omega)]
            rw [show C.len - 1 - 1 + 1 = C.len - 1 by ring]
            exact hconst (C.len - 1) (by omega) (by omega)
          rw [hfvc]
          by_cases hac : gets C.s 0 = a
          · rw [if_pos hac]
            left
            dsimp only [GoodChild, ParentInter]
            refine ⟨by omega, by omega, by omega, le_rfl, ?_, ?_⟩
            · intro r hr1 hr2
              rw [hSA r (by omega) (by omega)]
              rw [show C.len - 1 - r + 1 = C.len - r by ring]
              rw [hconst (C.len - r) (by omega) (by omega)]
              exact hac
            · intro h
              rw [hLCP 2 (by omega) (by omega)]
              refine ⟨by omega, by omega, by omega, by omega, by omega,
                by rw [hLCP 1 (by omega) (by omega)]; omega, ?_, ?_, by omega,
                by omega, rfl, ?_⟩
              · intro r hr1 hr2
                rw [hLCP r (by omega) (by omega)]
                omega
              · exact Or.inl rfl
              · intro r hr1 hr2
                omega
          · rw [if_neg hac]
            right
            exact ⟨rfl, rfl, fun h => hac h.symm⟩
  · -- negative sign: SA r = r, LCP r = len - r, first l-index is len - 1
    have hm1 : m0 = C.len - 1 := by
      have h1r := hLCP (C.len - 1) (by omega) (by omega)
      have hmo : (0 : ℤ) < m0 := hfli.1
      have hm2 : m0 ≤ C.len - 1 := hfli.2.1
      have hmm := hLCP m0 (by omega) (by omega)
      have := isFli_min hfli le_rfl (C.len - 1) (by omega) (by omega)
      omega
    subst hm1
    have hc1 : gets C.s (geti C.SA 0 + 1) = gets C.s 0 := by
      rw [hSA 0 le_rfl (by omega)]
      rw [show (0 : ℤ) + 1 = 1 by ring]
      exact hconst 1 (by omega) (by omega)
    simp only [giLoop]
    by_cases ha0 : gets C.s (geti C.SA 0 + 1) = a
    · rw [if_pos ha0]
      left
      have hac : gets C.s 0 = a := by rw [← hc1]; exact ha0
      dsimp only [GoodChild, ParentInter]
      by_cases hn2 : C.len = 2
      · refine ⟨le_rfl, le_rfl, by omega, by omega, ?_, ?_⟩
        · intro r hr1 hr2
          have hr : r = 0 := by omega
          rw [hr]
          exact ha0
        · intro h
          omega
      · -- len ≥ 3: the first child is [0, len-2] with first l-index len-2
        have hfli2 : isFli C 0 (C.len - 1 - 1) (geti C.CLD (C.len - 1 - 1)) := by
          apply ev_downL hv 0 (C.len - 1) le_rfl (by omega) (by omega) (by omega)
          · rw [ev_LCP0 hv, hLCP (C.len - 1) (by omega) (by omega)]
            omega
          · intro r hr1 hr2
            rw [hLCP (C.len - 1) (by omega) (by omega),
              hLCP r (by omega) (by omega)]
            omega
        have hcld : geti C.CLD (C.len - 1 - 1) = C.len - 2 := by
          have hx1 : (0 : ℤ) < geti C.CLD (C.len - 1 - 1) := hfli2.1
          have hx2 : geti C.CLD (C.len - 1 - 1) ≤ C.len - 1 - 1 := hfli2.2.1
          have hxv := hLCP (geti C.CLD (C.len - 1 - 1)) (by omega) (by omega)
          have := isFli_min hfli2 le_rfl (C.len - 2) (by omega) (by omega)
          have h2v := hLCP (C.len - 2) (by omega) (by omega)
          omega
        rw [hcld]
        refine ⟨le_rfl, le_rfl, by omega, by omega, ?_, ?_⟩
        · intro r hr1 hr2
          rw [hSA r (by omega) (by omega)]
          rw [hconst (r + 1) (by omega) (by omega)]
          exact hac
        · intro h
          rw [hLCP (C.len - 2) (by omega) (by omega)]
          refine ⟨by omega, by omega, by omega, by omega, by omega,
            by rw [ev_LCP0 hv]; omega, ?_, ?_, by omega, by omega, ?_, ?_⟩
          · intro r hr1 hr2
            rw [hLCP r (by omega) (by omega)]
            omega
          · refine Or.inr ?_
            rw [show C.len - 1 - 1 + 1 = C.len - 1 by ring,
              hLCP (C.len - 1) (by omega) (by omega)]
            omega
          · omega
          · intro r hr1 hr2
            rw [hLCP r (by omega) (by omega)]
            omega
    · rw [if_neg ha0]
      have hacn : a ≠ gets C.s 0 := by
        intro h
        exact ha0 (by rw [hc1, h])
      by_cases hsv : sval a < sval (gets C.s (geti C.SA 0 + 1))
      · rw [if_pos hsv]
        rw [giFinal]
        dsimp only
        rw [if_neg (show ¬((0 : ℤ) ≠ 0) from fun h => h rfl)]
        rw [if_neg ha0]
        right
        exact ⟨rfl, rfl, hacn⟩
      · rw [if_neg hsv]
        dsimp only
        rw [if_pos trivial]
        rw [giFinal]
        dsimp only
        rw [if_pos (show C.len - 1 ≠ 0 by omega)]
        have hfvc : gets C.FVC (C.len - 1) = '\x00' := by
          rw [ev_FVC hv (C.len - 1) (by omega) (by omega),
            hLCP (C.len - 1) (by omega) (by omega),
            hSA (C.len - 1) (by omega) (by omega)]
          rw [show C.len - 1 + (C.len - (C.len - 1)) = C.len by ring]
          exact gets_default hv C.len (by omega) le_rfl
        rw [hfvc]
        by_cases haz : '\x00' = a
        · rw [if_pos haz]
          left
          dsimp only [GoodChild, ParentInter]
          refine ⟨by omega, by omega, by omega, le_rfl, ?_, ?_⟩
          · intro r hr1 hr2
            have hr : r = C.len - 1 := by omega
            rw [hr, hSA (C.len - 1) (by omega) (by omega)]
            rw [show C.len - 1 + 1 = C.len by ring]
            rw [gets_default hv C.len (by omega) le_rfl]
            exact haz
          · intro h
            omega
        · rw [if_neg haz]
          right
          exact ⟨rfl, rfl, hacn⟩

/-- The main loop of `get_match_from` started at the root of a
constant-subject ESA (root depth 1, entry depth 0): the first iteration
is analysed via `const_get_interval`, after which the generic
`gmLoop_spec` applies. -/
theorem const_gmLoop {C : Esa} (hv : EsaValid C) (h2 : 2 ≤ C.len)
    (hconst : ∀ q : ℤ, 0 ≤ q → q < C.len → gets C.s q = gets C.s 0)
    (hcase : ConstStruct C) (m0 : ℤ)
    (hfli : isFli C 0 (C.len - 1) m0)
    (query : List Char) (hq : ∀ ch ∈ query, ch ≠ '\x00') :
    MatchRes C query query.length
      (gmLoop C query query.length (query.length + 2) 0
        ⟨1, 0, C.len - 1, m0⟩ ⟨1, 0, C.len - 1, m0⟩) := by
  rw [show query.length + 2 = (query.length + 1) + 1 from rfl]
  simp only [gmLoop]
  rw [show ((0 : ℤ)).toNat = 0 from rfl]
  rcases const_get_interval hv h2 hconst hcase m0 hfli (query.getD 0 '\x00')
    with hgood | ⟨hf1, hf2, hfc⟩
  · obtain ⟨hg1, hg2, hg3, hg4, hg5, hg6⟩ := hgood
    rw [if_neg (by intro hcon; exact absurd hcon.1 (by omega))]
    set ij2 := get_interval C ⟨1, 0, C.len - 1, m0⟩ (query.getD 0 '\x00')
      with hij2
    have hjlen : ij2.j ≤ C.len - 1 := hg4
    have hshared : ij2.i < ij2.j → ∀ r : ℤ, ij2.i ≤ r → r ≤ ij2.j →
        ∀ d : ℤ, 0 ≤ d → d < ij2.l →
        gets C.s (geti C.SA r + d) = gets C.s (geti C.SA ij2.i + d) := by
      intro hlt r u1 u2 d u3 u4
      obtain ⟨_, hgP⟩ := hg6 hlt
      exact (sharedChain hv ij2.i r d hgP.1 u1 (by omega)
        (fun r2 w1 w2 => lt_of_lt_of_le u4
          (hgP.2.2.2.2.2.1 r2 w1 (le_trans w2 u2))) u3).symm
    by_cases hq0 : query.length = 0
    · have hnsplit : ¬(ij2.i < ij2.j ∧ ij2.l < (query.length : ℤ)) := by
        intro hcon
        have := (hg6 hcon.1).1
        omega
      rw [if_neg hnsplit]
      rcases hE : gmExt C query ⟨1, ij2.i, ij2.j, m0⟩ (geti C.SA ij2.i)
          ((query.length : ℤ)) ((0 : ℤ) + 1) with out | k2
      · obtain ⟨e1, e2, e3, e4, e5, e6⟩ := gmExt_inl_spec C query _ _ _ _ out hE
        exfalso
        omega
      · show MatchRes C query query.length (if k2 < (query.length : ℤ) then
            gmLoop C query query.length (query.length + 1) k2 ij2
              ⟨1, ij2.i, ij2.j, m0⟩
            else ⟨(query.length : ℤ), ij2.i, ij2.j, m0⟩)
        obtain ⟨r1, r2⟩ := gmExt_inr_spec C query _ _ _ _ k2 hE
        have hk2 : k2 = (0 : ℤ) + 1 := r2 (by omega)
        rw [if_neg (by omega : ¬(k2 < (query.length : ℤ)))]
        dsimp only [MatchRes]
        refine ⟨?_, Or.inl rfl, ?_⟩
        · intro d hd0 hd1
          omega
        · intro r hr1 hr2 d hd0 hd1
          omega
    · have hanul : query.getD 0 '\x00' ≠ '\x00' := by
        have hmem : query.getD 0 '\x00' ∈ query := by
          rw [List.getD_eq_getElem query '\x00' (by omega)]
          exact List.getElem_mem _
        exact hq _ hmem
      have hac : query.getD 0 '\x00' = gets C.s 0 := by
        have h5 := hg5 ij2.i le_rfl hg3
        have hsab := ev_SA hv ij2.i (by omega) (by omega)
        rcases gets_nul_split hv (geti C.SA ij2.i + 1) (by omega)
          with ⟨hin, _⟩ | ⟨_, hn⟩
        · rw [← h5]
          exact hconst _ (by omega) hin
        · rw [hn] at h5
          exact absurd h5.symm hanul
      have hchar0 : ∀ r : ℤ, ij2.i ≤ r → r ≤ ij2.j →
          gets C.s (geti C.SA r + 0) = query.getD 0 '\x00' := by
        intro r u1 u2
        rw [add_zero]
        have hb := ev_SA hv r (by omega) (by omega)
        rw [hconst _ (by omega) (by omega)]
        exact hac.symm
      by_cases hsplit : ij2.i < ij2.j ∧ ij2.l < (query.length : ℤ)
      · rw [if_pos hsplit]
        obtain ⟨hgl, hgP⟩ := hg6 hsplit.1
        rcases hE : gmExt C query ⟨1, ij2.i, ij2.j, m0⟩ (geti C.SA ij2.i)
            ij2.l ((0 : ℤ) + 1) with out | k2
        · show MatchRes C query query.length out
          obtain ⟨e1, e2, e3, e4, e5, e6⟩ := gmExt_inl_spec C query _ _ _ _ out hE
          have e1c : out.i = ij2.i := e1
          have e2c : out.j = ij2.j := e2
          refine ⟨?_, ?_, ?_⟩
          · intro d hd0 hd1
            rw [e1c]
            rcases lt_trichotomy d 0 with h | h | h
            · omega
            · rw [h]
              exact hchar0 ij2.i le_rfl hg3
            · exact e5 d (by omega) hd1
          · refine Or.inr (Or.inl ?_)
            rw [e1c]
            exact Ne.symm e6
          · intro r h1 h2 d hd0 hd1
            rw [e1c] at h1
            rw [e2c] at h2
            rcases lt_trichotomy d 0 with h | h | h
            · omega
            · rw [h]
              exact hchar0 r h1 h2
            · rw [hshared hsplit.1 r h1 h2 d hd0 (by omega)]
              exact e5 d (by omega) hd1
        · show MatchRes C query query.length (if k2 < (query.length : ℤ) then
            gmLoop C query query.length (query.length + 1) k2 ij2
              ⟨1, ij2.i, ij2.j, m0⟩
            else ⟨(query.length : ℤ), ij2.i, ij2.j, m0⟩)
          obtain ⟨r1, r2⟩ := gmExt_inr_spec C query _ _ _ _ k2 hE
          have hgl0 : (1 : ℤ) < ij2.l := hgl
          have hra : k2 = ij2.l := by
            rcases lt_or_le ((0 : ℤ) + 1) ij2.l with h | h
            · exact (r1 h).1
            · have := r2 h
              omega
          have hrb : ∀ d : ℤ, 1 ≤ d → d < ij2.l →
              gets C.s (geti C.SA ij2.i + d) = query.getD d.toNat '\x00' := by
            rcases lt_or_le ((0 : ℤ) + 1) ij2.l with h | h
            · intro d u1 u2
              exact (r1 h).2 d (by omega) u2
            · intro d u1 u2
              omega
          rw [if_pos (by omega : k2 < (query.length : ℤ))]
          apply gmLoop_spec hv query query.length (query.length + 1) k2 ij2
            ⟨1, ij2.i, ij2.j, m0⟩ (by omega) (by omega) (by omega) hra hgP rfl
            rfl
          intro r h1 h2 d hd0 hd1
          rcases lt_trichotomy d 0 with h | h | h
          · omega
          · rw [h]
            exact hchar0 r h1 h2
          · rw [hshared hsplit.1 r h1 h2 d hd0 (by omega)]
            exact hrb d (by omega) (by omega)
      · rw [if_neg hsplit]
        rcases hE : gmExt C query ⟨1, ij2.i, ij2.j, m0⟩ (geti C.SA ij2.i)
            ((query.length : ℤ)) ((0 : ℤ) + 1) with out | k2
        · show MatchRes C query query.length out
          obtain ⟨e1, e2, e3, e4, e5, e6⟩ := gmExt_inl_spec C query _ _ _ _ out hE
          have e1c : out.i = ij2.i := e1
          have e2c : out.j = ij2.j := e2
          refine ⟨?_, ?_, ?_⟩
          · intro d hd0 hd1
            rw [e1c]
            rcases lt_trichotomy d 0 with h | h | h
            · omega
            · rw [h]
              exact hchar0 ij2.i le_rfl hg3
            · exact e5 d (by omega) hd1
          · refine Or.inr (Or.inl ?_)
            rw [e1c]
            exact Ne.symm e6
          · intro r h1 h2 d hd0 hd1
            rw [e1c] at h1
            rw [e2c] at h2
            rcases lt_trichotomy d 0 with h | h | h
            · omega
            · rw [h]
              exact hchar0 r h1 h2
            · by_cases hlt : ij2.i < ij2.j
              · have hql : (query.length : ℤ) ≤ ij2.l := by
                  by_contra hcon
                  exact hsplit ⟨hlt, by omega⟩
                rw [hshared hlt r h1 h2 d hd0 (by omega)]
                exact e5 d (by omega) hd1
              · have hre : r = ij2.i := by omega
                rw [hre]
                exact e5 d (by omega) hd1
        · show MatchRes C query query.length (if k2 < (query.length : ℤ) then
            gmLoop C query query.length (query.length + 1) k2 ij2
              ⟨1, ij2.i, ij2.j, m0⟩
            else ⟨(query.length : ℤ), ij2.i, ij2.j, m0⟩)
          obtain ⟨r1, r2⟩ := gmExt_inr_spec C query _ _ _ _ k2 hE
          have hk2 : (query.length : ℤ) ≤ k2 := by
            rcases lt_or_le ((0 : ℤ) + 1) ((query.length : ℕ) : ℤ) with h | h
            · have := (r1 h).1
              omega
            · have := r2 h
              omega
          rw [if_neg (by omega : ¬(k2 < (query.length : ℤ)))]
          dsimp only [MatchRes]
          refine ⟨?_, Or.inl rfl, ?_⟩
          · intro d hd0 hd1
            rcases lt_trichotomy d 0 with h | h | h
            · omega
            · rw [h]
              exact hchar0 ij2.i le_rfl hg3
            · rcases lt_or_le ((0 : ℤ) + 1) ((query.length : ℕ) : ℤ) with hq2 | hq2
              · exact (r1 hq2).2 d (by omega) hd1
              · omega
          · intro r h1 h2 d hd0 hd1
            rcases lt_trichotomy d 0 with h | h | h
            · omega
            · rw [h]
              exact hchar0 r h1 h2
            · by_cases hlt : ij2.i < ij2.j
              · have hql : (query.length : ℤ) ≤ ij2.l := by
                  by_contra hcon
                  exact hsplit ⟨hlt, by omega⟩
                rw [hshared hlt r h1 h2 d hd0 (by omega)]
                rcases lt_or_le ((0 : ℤ) + 1) ((query.length : ℕ) : ℤ) with hq2 | hq2
                · exact (r1 hq2).2 d (by omega) hd1
                · omega
              · have hre : r = ij2.i := by omega
                rw [hre]
                rcases lt_or_le ((0 : ℤ) + 1) ((query.length : ℕ) : ℤ) with hq2 | hq2
                · exact (r1 hq2).2 d (by omega) hd1
                · omega
  · rw [if_pos ⟨hf1, hf2⟩]
    dsimp only [MatchRes]
    refine ⟨?_, ?_, ?_⟩
    · intro d hd0 hd1
      omega
    · by_cases hzq : (0 : ℤ) = (query.length : ℤ)
      · exact Or.inl hzq
      · refine Or.inr (Or.inl ?_)
        have hSA0c : gets C.s (geti C.SA 0 + 0) = gets C.s 0 := by
          rw [add_zero]
          rcases hcase with ⟨_, hSA, _⟩ | ⟨_, hSA, _⟩
          · rw [hSA 0 le_rfl (by omega)]
            exact hconst (C.len - 1 - 0) (by omega) (by omega)
          · rw [hSA 0 le_rfl (by omega)]
        rw [hSA0c]
        exact hfc
    · intro r hr1 hr2 d hd0 hd1
      omega

/-- C1: for every subject string `RS` with a validly constructed enhanced
suffix array (`EsaValid`: `SA` in bounds and surjective, `LCP` the exact
adjacent longest-common-prefix lengths with the variant characters in
`char` order, `FVC[i] = RS[SA[i]+LCP[i]]`, `CLD` the child-table links)
and every query string `Q` (a NUL-free character list, `qlen = |Q|`),
`get_match(C, Q, |Q|)` returns an interval `{i, j, l}` such that
(a) `Q[0..l) = RS[SA[i] .. SA[i]+l)`,
(b) `l = |Q|`, or `Q[l] ≠ RS[SA[i]+l]`, or the byte of `RS` after the
match is the subject terminator NUL, and
(c) every suffix in `SA[i..j]` has `Q[0..l)` as a prefix.
Reads of `RS` are through `gets`, which models the NUL-terminated C
buffer. -/
theorem C1_get_match_correct (C : Esa) (query : List Char)
    (hv : EsaValid C) (hq : ∀ ch ∈ query, ch ≠ '\x00') :
    (∀ d : ℤ, 0 ≤ d → d < (get_match C query query.length).l →
      gets C.s (geti C.SA (get_match C query query.length).i + d) =
        query.getD d.toNat '\x00') ∧
    ((get_match C query query.length).l = (query.length : ℤ) ∨
      query.getD (get_match C query query.length).l.toNat '\x00' ≠
        gets C.s (geti C.SA (get_match C query query.length).i +
          (get_match C query query.length).l) ∨
      gets C.s (geti C.SA (get_match C query query.length).i +
        (get_match C query query.length).l) = '\x00') ∧
    (∀ r : ℤ, (get_match C query query.length).i ≤ r →
      r ≤ (get_match C query query.length).j →
      ∀ d : ℤ, 0 ≤ d → d < (get_match C query query.length).l →
      gets C.s (geti C.SA r + d) = query.getD d.toNat '\x00') := by
  suffices h : MatchRes C query query.length (get_match C query query.length) by
    exact ⟨h.1, h.2.1, h.2.2⟩
  by_cases h0 : C.len = 1
  · exact get_match_len1 hv h0 query query.length
  · have h2 : 2 ≤ C.len := by
      have := ev_pos hv
      omega
    have hroot : isFli C 0 (C.len - 1) (geti C.CLD (C.len - 1)) := by
      have := ev_downL hv 0 C.len le_rfl (by omega) le_rfl (by omega)
        (by simp [ev_LCP0 hv, ev_LCPn hv])
        (by
          intro r a b
          rw [ev_LCPn hv]
          have := ev_LCPpos hv r a b
          omega)
      simpa using this
    simp only [get_match]
    rw [if_neg (by omega : ¬C.len = 0)]
    rw [get_match_from]
    rw [if_neg (by dsimp only; omega)]
    rw [if_neg (by dsimp only; omega)]
    have hl0 : 0 ≤ geti C.LCP (geti C.CLD (C.len - 1)) :=
      ev_LCPpos hv _ hroot.1 (by have := hroot.2.1; omega)
    by_cases hz : geti C.LCP (geti C.CLD (C.len - 1)) = 0
    · rw [hz]
      refine gmLoop_spec hv query query.length (query.length + 2) 0
        ⟨0, 0, C.len - 1, geti C.CLD (C.len - 1)⟩
        ⟨0, 0, C.len - 1, geti C.CLD (C.len - 1)⟩
        (by omega) le_rfl (by omega) rfl ?_ rfl rfl ?_
      · dsimp only [ParentInter]
        refine ⟨le_rfl, by omega, le_rfl, le_rfl, ?_, ?_, Or.inl rfl,
          hroot.1, hroot.2.1, hz, ?_⟩
        · rw [ev_LCP0 hv]
          omega
        · intro r a b
          exact ev_LCPpos hv r a (by omega)
        · intro r a b
          have := isFli_first hroot le_rfl r a b
          omega
      · intro r a b d e f
        omega
    · have hall : ∀ r : ℤ, 0 < r → r < C.len → 1 ≤ geti C.LCP r := by
        intro r a b
        have := isFli_min hroot le_rfl r a (by omega)
        omega
      have hcs := const_struct hv h2 hall
      have hl1 : geti C.LCP (geti C.CLD (C.len - 1)) = 1 := by
        rcases hcs.2 with ⟨_, _, hLCP⟩ | ⟨_, _, hLCP⟩
        · have h1r := hLCP 1 (by omega) (by omega)
          have hmm := hLCP (geti C.CLD (C.len - 1)) hroot.1
            (by have := hroot.2.1; omega)
          have := isFli_min hroot le_rfl 1 (by omega) (by omega)
          omega
        · have h1r := hLCP (C.len - 1) (by omega) (by omega)
          have hmm := hLCP (geti C.CLD (C.len - 1)) hroot.1
            (by have := hroot.2.1; omega)
          have := isFli_min hroot le_rfl (C.len - 1) (by omega) (by omega)
          omega
      rw [hl1]
      exact const_gmLoop hv h2 hcs.1 hcs.2 (geti C.CLD (C.len - 1)) hroot
        query hq

attribute [reducible] isFli nextEq cldNext cldDownR cldDownL EsaValid

/-- A valid ESA for the two-character subject "AC" (suffix array `[0,1]`,
`LCP = [-1,0,-1]`, child table as `esa_init_CLD` computes it, `FVC[1] =
S[SA[1]+LCP[1]] = C`). -/
def esaAC : Esa :=
  ⟨['A', 'C'], [0, 1], [-1, 0, -1], [3, 1, 0], ['\x00', 'C'], [], 2⟩

set_option synthInstance.maxSize 2000 in
set_option synthInstance.maxHeartbeats 1000000 in
/-- Closed instance of the claim: validity of the concrete ESA for "AC"
is checked by `decide` and the theorem is instantiated on the query
"A". -/
theorem C1_get_match_correct_witness :
    EsaValid esaAC ∧
    ((∀ d : ℤ, 0 ≤ d → d < (get_match esaAC ['A'] (['A'] : List Char).length).l →
      gets esaAC.s (geti esaAC.SA
        (get_match esaAC ['A'] (['A'] : List Char).length).i + d) =
        (['A'] : List Char).getD d.toNat '\x00') ∧
    ((get_match esaAC ['A'] (['A'] : List Char).length).l =
        ((['A'] : List Char).length : ℤ) ∨
      (['A'] : List Char).getD
          (get_match esaAC ['A'] (['A'] : List Char).length).l.toNat '\x00' ≠
        gets esaAC.s (geti esaAC.SA
          (get_match esaAC ['A'] (['A'] : List Char).length).i +
          (get_match esaAC ['A'] (['A'] : List Char).length).l) ∨
      gets esaAC.s (geti esaAC.SA
        (get_match esaAC ['A'] (['A'] : List Char).length).i +
        (get_match esaAC ['A'] (['A'] : List Char).length).l) = '\x00') ∧
    (∀ r : ℤ, (get_match esaAC ['A'] (['A'] : List Char).length).i ≤ r →
      r ≤ (get_match esaAC ['A'] (['A'] : List Char).length).j →
      ∀ d : ℤ, 0 ≤ d → d < (get_match esaAC ['A'] (['A'] : List Char).length).l →
      gets esaAC.s (geti esaAC.SA r + d) =
        (['A'] : List Char).getD d.toNat '\x00')) :=
  ⟨by decide, C1_get_match_correct esaAC ['A'] (by decide) (by decide)⟩

/-! ## The anchor-based divergence estimator (src/process.c)

`size_t` positions and lengths are embedded as `ℕ`; the one place the
original relies on `size_t` wrap-around semantics (the colinearity test
`this.pos_Q - end_Q == this.pos_S - end_S`) is embedded as the equality of
the differences over `ℤ`, which coincides with the wrapped equality for
the magnitudes that occur. -/

/-- The `lcp` helper of src/process.c: length of the longest common prefix
of two buffers, bounded by `remaining`. -/
def lcpLenGo (S Q : List Char) (remaining : ℕ) (length : ℕ) : ℕ :=
  if h : length < remaining ∧ S.getD length '\x00' = Q.getD length '\x00' then
    lcpLenGo S Q remaining (length + 1)
  else length
termination_by remaining - length
decreasing_by
  have := h.1
  omega

def lcpLen (S Q : List Char) (remaining : ℕ) : ℕ := lcpLenGo S Q remaining 0

/-- The `anchor` struct of src/process.c. -/
structure Anchor where
  pos_S : ℕ
  pos_Q : ℕ
  length : ℕ
deriving DecidableEq

/-- `lucky_anchor` of src/process.c: try to extend the last anchor
colinearly without a suffix-array lookup.  Returns the updated
`this_match` together with the acceptance flag. -/
def lucky_anchor (C : Esa) (query : List Char) (query_length : ℕ)
    (threshold : ℕ) (last this : Anchor) : Bool × Anchor :=
  let advance := this.pos_Q - last.pos_Q
  let gap := this.pos_Q - last.pos_Q - last.length
  let try_pos_S := last.pos_S + advance
  if C.len ≤ (try_pos_S : ℤ) ∨ threshold < gap then (false, this)
  else
    let len := lcpLen (query.drop this.pos_Q) (C.s.drop try_pos_S)
      (query_length - this.pos_Q)
    (decide (threshold ≤ len), { this with pos_S := try_pos_S, length := len })

/-- `anchor` of src/process.c: look the remaining query up in the ESA; the
match is an anchor iff its interval is a singleton and its length reaches
the threshold.  (`pos_S` is read from `SA[inter.i]` unconditionally, as in
the original.) -/
def anchorFn (C : Esa) (query : List Char) (query_length : ℕ)
    (threshold : ℕ) (this : Anchor) : Bool × Anchor :=
  let inter := get_match_cached C (query.drop this.pos_Q)
    (query_length - this.pos_Q)
  let len := if inter.l ≤ 0 then 0 else inter.l.toNat
  (decide (inter.i = inter.j) && decide (threshold ≤ len),
    { this with pos_S := (geti C.SA inter.i).toNat, length := len })

/-! ## Counting bounds for claim C7 -/

theorem model_count_seq_len (MM : Model) (S Q : List Char) (len : ℕ) :
    (model_count MM S Q len).seq_len = MM.seq_len := rfl

theorem model_count_equal_seq_len (mdl : EvoModel) (MM : Model)
    (S : List Char) (len : ℕ) :
    (model_count_equal mdl MM S len).seq_len = MM.seq_len := by
  unfold model_count_equal
  split <;> rfl

theorem nucl2bit_le (c : Char) : nucl2bit c ≤ 3 := by
  unfold nucl2bit
  have hx : c.toNat &&& 6 < 8 := lt_of_le_of_lt Nat.and_le_right (by norm_num)
  have hstep : (c.toNat &&& 6) >>> 1 ≤ c.toNat &&& 6 := by
    rw [Nat.shiftRight_eq_div_pow]
    exact Nat.div_le_self _ _
  have hy : (c.toNat &&& 6) ^^^ ((c.toNat &&& 6) >>> 1) < 8 :=
    Nat.xor_lt_two_pow (n := 3) hx (lt_of_le_of_lt hstep hx)
  calc ((c.toNat &&& 6) ^^^ ((c.toNat &&& 6) >>> 1)) >>> 1
      = ((c.toNat &&& 6) ^^^ ((c.toNat &&& 6) >>> 1)) / 2 := by
        rw [Nat.shiftRight_eq_div_pow]
        try norm_num
    _ ≤ 3 := by omega

theorem mutIndex_lt (s q : Char) : mutIndex s q < 16 := by
  unfold mutIndex
  have hs := nucl2bit_le s
  have hq := nucl2bit_le q
  have h4 : nucl2bit s = 0 ∨ nucl2bit s = 1 ∨ nucl2bit s = 2 ∨ nucl2bit s = 3 := by
    omega
  rcases h4 with h | h | h | h <;> rw [h] <;>
    simp only [show ((0xc840 : ℕ) >>> (4 * 0)) &&& 0xf = 0 from by decide,
      show ((0xc840 : ℕ) >>> (4 * 1)) &&& 0xf = 4 from by decide,
      show ((0xc840 : ℕ) >>> (4 * 2)) &&& 0xf = 8 from by decide,
      show ((0xc840 : ℕ) >>> (4 * 3)) &&& 0xf = 12 from by decide] <;>
    split <;> omega

/-- Incrementing one in-range cell raises the 16-cell sum by one. -/
theorem sum16_update (cnt : ℕ → ℕ) (idx : ℕ) (hidx : idx < 16) :
    ∑ i ∈ Finset.range 16, Function.update cnt idx (cnt idx + 1) i =
      (∑ i ∈ Finset.range 16, cnt i) + 1 := by
  have hm : idx ∈ Finset.range 16 := Finset.mem_range.2 hidx
  rw [Finset.sum_update_of_mem hm]
  have h2 : ∑ i ∈ Finset.range 16, cnt i =
      cnt idx + ∑ i ∈ Finset.range 16 \ {idx}, cnt i := by
    nth_rewrite 1 [show cnt = Function.update cnt idx (cnt idx) from
      (Function.update_eq_self idx cnt).symm]
    rw [Finset.sum_update_of_mem hm]
    try rw [Function.update_eq_self]
  omega

theorem model_count_local_total (S Q : List Char) (len : ℕ) :
    ∑ i ∈ Finset.range 16, model_count_local S Q len i ≤ len := by
  induction len with
  | zero => simp [model_count_local]
  | succ n ih =>
    unfold model_count_local model_count_step
    split
    · exact ih.trans (by omega)
    · rw [sum16_update _ _ (mutIndex_lt _ _)]
      omega

/-- `model_count` adds at most `len` to the total count. -/
theorem model_total_model_count (MM : Model) (S Q : List Char) (len : ℕ) :
    model_total (model_count MM S Q len) ≤ model_total MM + len := by
  unfold model_total model_count MUTCOUNTS
  rw [Finset.sum_add_distrib]
  have := model_count_local_total S Q len
  omega

/-- The 16-cell sum of the matrix produced by adding `a`,`b`,`c`,`d` to
the four diagonal cells. -/
theorem sum16_add4 (cnt : ℕ → ℕ) (a b c d : ℕ) :
    ∑ i ∈ Finset.range 16,
      (if i = AtoA then cnt i + a
       else if i = CtoC then cnt i + b
       else if i = GtoG then cnt i + c
       else if i = TtoT then cnt i + d
       else cnt i) = (∑ i ∈ Finset.range 16, cnt i) + (a + b + c + d) := by
  simp [Finset.sum_range_succ, AtoA, CtoC, GtoG, TtoT]
  try ring

theorem equal_local_counts_sum_le (S : List Char) (len : ℕ) :
    equal_local_counts S len 0 + equal_local_counts S len 1 +
      equal_local_counts S len 2 + equal_local_counts S len 3 ≤ len := by
  induction len with
  | zero => simp [equal_local_counts]
  | succ n ih =>
    unfold equal_local_counts
    by_cases hc : sval (S.getD n '\x00') < 65
    · simp only [if_pos hc]
      omega
    · simp only [if_neg hc]
      have hcls : (S.getD n '\x00').toNat >>> 1 &&& 3 ≤ 3 := Nat.and_le_right
      have h4 : (S.getD n '\x00').toNat >>> 1 &&& 3 = 0 ∨
          (S.getD n '\x00').toNat >>> 1 &&& 3 = 1 ∨
          (S.getD n '\x00').toNat >>> 1 &&& 3 = 2 ∨
          (S.getD n '\x00').toNat >>> 1 &&& 3 = 3 := by omega
      rcases h4 with h | h | h | h <;> rw [h] <;> simp [Function.update] <;> omega

/-- `model_count_equal` adds at most `len` to the total count (the fast
path adds exactly `len`). -/
theorem model_total_model_count_equal (mdl : EvoModel) (MM : Model)
    (S : List Char) (len : ℕ) :
    model_total (model_count_equal mdl MM S len) ≤ model_total MM + len := by
  unfold model_total model_count_equal MUTCOUNTS
  split
  · rw [sum16_add4]
    have h1 : len &&& 3 = len % 4 := Nat.and_pow_two_sub_one_eq_mod len 2
    have h2 := Nat.div_add_mod len 4
    omega
  · rw [sum16_add4]
    have := equal_local_counts_sum_le S len
    omega

/-- Candidate anchor of one iteration of the main loop of `dist_anchor`
(src/process.c): the lucky-anchor shortcut when it hits, otherwise the
ESA `anchor` lookup. -/
def daCandidate (C : Esa) (query : List Char) (query_length threshold : ℕ)
    (lastM thisM : Anchor) : Bool × Anchor :=
  let lucky := lucky_anchor C query query_length threshold lastM thisM
  if lucky.1 then lucky
  else anchorFn C query query_length threshold lucky.2

/-- One iteration of the main loop of `dist_anchor` (src/process.c) from
the state `(this_match, last_match, last_was_right_anchor, ret)`: on an
accepted anchor either close an anchor pair (counting the left anchor and
the bridge) or count the previous anchor when it was a right anchor or
long enough on its own; finally advance `this_match.pos_Q` past the
current match.  (`lucky_anchor` and `anchor` never write `pos_Q`, so the
advance is written from `thisM.pos_Q`.) -/
def daStep (mdl : EvoModel) (C : Esa) (query : List Char)
    (query_length threshold : ℕ) (thisM lastM : Anchor) (lwr : Bool)
    (ret : Model) : Anchor × Anchor × Bool × Model :=
  let step := daCandidate C query query_length threshold lastM thisM
  let this2 := step.2
  let next : Anchor := { this2 with pos_Q := thisM.pos_Q + this2.length + 1 }
  if step.1 then
    let end_S := lastM.pos_S + lastM.length
    let end_Q := lastM.pos_Q + lastM.length
    if (end_S : ℤ) < this2.pos_S ∧
        (this2.pos_Q : ℤ) - end_Q = (this2.pos_S : ℤ) - end_S then
      (next, this2, true,
        model_count (model_count_equal mdl ret (query.drop lastM.pos_Q) lastM.length)
          (C.s.drop end_S) (query.drop end_Q) (this2.pos_Q - end_Q))
    else
      (next, this2, false,
        if lwr then model_count_equal mdl ret (query.drop lastM.pos_Q) lastM.length
        else if threshold * 2 ≤ lastM.length then
          model_count_equal mdl ret (query.drop lastM.pos_Q) lastM.length
        else ret)
  else (next, lastM, lwr, ret)

theorem daStep_pos_Q_lt (mdl : EvoModel) (C : Esa) (query : List Char)
    (query_length threshold : ℕ) (thisM lastM : Anchor) (lwr : Bool)
    (ret : Model) :
    thisM.pos_Q < (daStep mdl C query query_length threshold thisM lastM lwr ret).1.pos_Q := by
  simp only [daStep]
  split <;> (try split) <;> (try dsimp only) <;> omega

/-- The `while (this_match.pos_Q < query_length)` loop of `dist_anchor`
(src/process.c), iterating `daStep`. -/
def daLoop (mdl : EvoModel) (C : Esa) (query : List Char)
    (query_length threshold : ℕ) (thisM lastM : Anchor) (lwr : Bool)
    (ret : Model) : Anchor × Bool × Model :=
  if _h : thisM.pos_Q < query_length then
    let st := daStep mdl C query query_length threshold thisM lastM lwr ret
    daLoop mdl C query query_length threshold st.1 st.2.1 st.2.2.1 st.2.2.2
  else (lastM, lwr, ret)
termination_by query_length - thisM.pos_Q
decreasing_by
  have := daStep_pos_Q_lt mdl C query query_length threshold thisM lastM lwr ret
  omega

theorem lcpLenGo_le (S Q : List Char) (rem : ℕ) :
    ∀ len, len ≤ rem → lcpLenGo S Q rem len ≤ rem := by
  intro len
  induction len using lcpLenGo.induct S Q rem with
  | case1 len h ih =>
    intro _hl
    rw [lcpLenGo, dif_pos h]
    exact ih (by omega)
  | case2 len h =>
    intro hl
    rw [lcpLenGo, dif_neg h]
    exact hl

theorem lcpLen_le (S Q : List Char) (rem : ℕ) : lcpLen S Q rem ≤ rem :=
  lcpLenGo_le S Q rem 0 (Nat.zero_le _)

theorem lucky_anchor_pos_Q (C : Esa) (query : List Char)
    (qlen threshold : ℕ) (last this : Anchor) :
    (lucky_anchor C query qlen threshold last this).2.pos_Q = this.pos_Q := by
  simp only [lucky_anchor]
  split <;> rfl

theorem lucky_anchor_length_le (C : Esa) (query : List Char)
    (qlen threshold : ℕ) (last this : Anchor) (hq : this.pos_Q ≤ qlen) :
    (lucky_anchor C query qlen threshold last this).1 = true →
    this.pos_Q + (lucky_anchor C query qlen threshold last this).2.length ≤ qlen := by
  simp only [lucky_anchor]
  split
  · intro h
    cases h
  · intro _h
    dsimp only
    have := lcpLen_le (query.drop this.pos_Q)
      (C.s.drop (last.pos_S + (this.pos_Q - last.pos_Q))) (qlen - this.pos_Q)
    omega

theorem anchorFn_pos_Q (C : Esa) (query : List Char) (qlen threshold : ℕ)
    (this : Anchor) :
    (anchorFn C query qlen threshold this).2.pos_Q = this.pos_Q := rfl

theorem anchorFn_length_le (C : Esa) (query : List Char) (qlen threshold : ℕ)
    (this : Anchor) (hlen : C.len ≤ 0 ∨ 2 ≤ C.len) (hc : cacheBounded C)
    (_hq : this.pos_Q ≤ qlen) :
    this.pos_Q + (anchorFn C query qlen threshold this).2.length ≤ qlen := by
  have hle := get_match_cached_l_le C (query.drop this.pos_Q)
    (qlen - this.pos_Q) hlen hc
  simp only [anchorFn]
  try dsimp only
  split
  · omega
  · omega

theorem daCandidate_pos_Q (C : Esa) (query : List Char)
    (qlen threshold : ℕ) (lastM thisM : Anchor) :
    (daCandidate C query qlen threshold lastM thisM).2.pos_Q = thisM.pos_Q := by
  simp only [daCandidate]
  split
  · exact lucky_anchor_pos_Q C query qlen threshold lastM thisM
  · rw [anchorFn_pos_Q, lucky_anchor_pos_Q]

theorem daCandidate_length_le (C : Esa) (query : List Char)
    (qlen threshold : ℕ) (lastM thisM : Anchor)
    (hlen : C.len ≤ 0 ∨ 2 ≤ C.len) (hc : cacheBounded C)
    (hq : thisM.pos_Q ≤ qlen) :
    (daCandidate C query qlen threshold lastM thisM).1 = true →
    thisM.pos_Q + (daCandidate C query qlen threshold lastM thisM).2.length ≤ qlen := by
  simp only [daCandidate]
  split
  · next hl => intro _; exact lucky_anchor_length_le C query qlen threshold lastM thisM hq hl
  · intro _
    have := anchorFn_length_le C query qlen threshold
      (lucky_anchor C query qlen threshold lastM thisM).2 hlen hc
      (by rw [lucky_anchor_pos_Q]; exact hq)
    rw [lucky_anchor_pos_Q] at this
    exact this

theorem daStep_invariant (mdl : EvoModel) (C : Esa) (query : List Char)
    (qlen threshold : ℕ) (thisM lastM : Anchor) (lwr : Bool) (ret : Model)
    (hlen : C.len ≤ 0 ∨ 2 ≤ C.len) (hc : cacheBounded C)
    (hq : thisM.pos_Q < qlen)
    (h1 : model_total ret ≤ lastM.pos_Q)
    (h2 : lastM.pos_Q + lastM.length ≤ thisM.pos_Q)
    (h3 : lastM.pos_Q + lastM.length ≤ qlen)
    (h4 : ret.seq_len = qlen) :
    model_total (daStep mdl C query qlen threshold thisM lastM lwr ret).2.2.2 ≤
      (daStep mdl C query qlen threshold thisM lastM lwr ret).2.1.pos_Q ∧
    (daStep mdl C query qlen threshold thisM lastM lwr ret).2.1.pos_Q +
      (daStep mdl C query qlen threshold thisM lastM lwr ret).2.1.length ≤
      (daStep mdl C query qlen threshold thisM lastM lwr ret).1.pos_Q ∧
    (daStep mdl C query qlen threshold thisM lastM lwr ret).2.1.pos_Q +
      (daStep mdl C query qlen threshold thisM lastM lwr ret).2.1.length ≤ qlen ∧
    (daStep mdl C query qlen threshold thisM lastM lwr ret).2.2.2.seq_len = qlen := by
  have hpos := daCandidate_pos_Q C query qlen threshold lastM thisM
  have hlength := daCandidate_length_le C query qlen threshold lastM thisM hlen hc hq.le
  simp only [daStep]
  split
  · next hok =>
    have hlen2 := hlength hok
    split
    · refine ⟨?_, by dsimp only; omega, by dsimp only; omega, ?_⟩
      · dsimp only
        have ha := model_total_model_count_equal mdl ret
          (query.drop lastM.pos_Q) lastM.length
        have hb := model_total_model_count
          (model_count_equal mdl ret (query.drop lastM.pos_Q) lastM.length)
          (C.s.drop (lastM.pos_S + lastM.length))
          (query.drop (lastM.pos_Q + lastM.length))
          ((daCandidate C query qlen threshold lastM thisM).2.pos_Q -
            (lastM.pos_Q + lastM.length))
        omega
      · dsimp only
        rw [model_count_seq_len, model_count_equal_seq_len]
        exact h4
    · refine ⟨?_, by dsimp only; omega, by dsimp only; omega, ?_⟩
      · dsimp only
        have ha := model_total_model_count_equal mdl ret
          (query.drop lastM.pos_Q) lastM.length
        split
        · omega
        · split
          · omega
          · omega
      · dsimp only
        split
        · rw [model_count_equal_seq_len]; exact h4
        · split
          · rw [model_count_equal_seq_len]; exact h4
          · exact h4
  · exact ⟨h1, by dsimp only; omega, h3, h4⟩

theorem daLoop_invariant (mdl : EvoModel) (C : Esa) (query : List Char)
    (qlen threshold : ℕ) (hlen : C.len ≤ 0 ∨ 2 ≤ C.len) (hc : cacheBounded C) :
    ∀ thisM lastM lwr ret,
      model_total ret ≤ lastM.pos_Q →
      lastM.pos_Q + lastM.length ≤ thisM.pos_Q →
      lastM.pos_Q + lastM.length ≤ qlen →
      ret.seq_len = qlen →
      model_total (daLoop mdl C query qlen threshold thisM lastM lwr ret).2.2 ≤
        (daLoop mdl C query qlen threshold thisM lastM lwr ret).1.pos_Q ∧
      (daLoop mdl C query qlen threshold thisM lastM lwr ret).1.pos_Q +
        (daLoop mdl C query qlen threshold thisM lastM lwr ret).1.length ≤ qlen ∧
      (daLoop mdl C query qlen threshold thisM lastM lwr ret).2.2.seq_len = qlen := by
  intro thisM lastM lwr ret
  induction thisM, lastM, lwr, ret using daLoop.induct mdl C query qlen threshold with
  | case1 thisM lastM lwr ret hq st ih =>
    intro h1 h2 h3 h4
    rw [daLoop, dif_pos hq]
    have hstep := daStep_invariant mdl C query qlen threshold thisM lastM lwr ret
      hlen hc hq h1 h2 h3 h4
    exact ih hstep.1 hstep.2.1 hstep.2.2.1 hstep.2.2.2
  | case2 thisM lastM lwr ret hq =>
    intro h1 h2 h3 h4
    rw [daLoop, dif_neg hq]
    exact ⟨h1, h3, h4⟩

/-- Final tallies of `dist_anchor` (src/process.c) after the loop: count the
whole query as identical when the last anchor covers it, otherwise count the
last anchor when it was a right anchor or long enough on its own. -/
def daFinal (mdl : EvoModel) (query : List Char) (query_length threshold : ℕ)
    (lastM : Anchor) (lwr : Bool) (ret : Model) : Model :=
  if query_length ≤ lastM.length then model_count_equal mdl ret query query_length
  else if lwr then model_count_equal mdl ret (query.drop lastM.pos_Q) lastM.length
  else if threshold * 2 ≤ lastM.length then
    model_count_equal mdl ret (query.drop lastM.pos_Q) lastM.length
  else ret

/-- `dist_anchor` of src/process.c.  The threshold
`min_anchor_length(RANDOM_ANCHOR_PROP, gc, C->len)` is passed as an
explicit parameter (its value depends on the GC content but does not
matter to the invariants proved below). -/
def dist_anchor (mdl : EvoModel) (C : Esa) (query : List Char)
    (query_length threshold : ℕ) : Model :=
  let st := daLoop mdl C query query_length threshold ⟨0, 0, 0⟩ ⟨0, 0, 0⟩ false
    ⟨fun _ => 0, query_length⟩
  daFinal mdl query query_length threshold st.1 st.2.1 st.2.2

theorem daFinal_bounds (mdl : EvoModel) (query : List Char)
    (qlen threshold : ℕ) (lastM : Anchor) (lwr : Bool) (ret : Model)
    (h1 : model_total ret ≤ lastM.pos_Q)
    (h3 : lastM.pos_Q + lastM.length ≤ qlen)
    (h4 : ret.seq_len = qlen) :
    model_total (daFinal mdl query qlen threshold lastM lwr ret) ≤ qlen ∧
    (daFinal mdl query qlen threshold lastM lwr ret).seq_len = qlen := by
  unfold daFinal
  split
  · have ha := model_total_model_count_equal mdl ret query qlen
    exact ⟨by omega, by rw [model_count_equal_seq_len]; exact h4⟩
  · split
    · have ha := model_total_model_count_equal mdl ret
        (query.drop lastM.pos_Q) lastM.length
      exact ⟨by omega, by rw [model_count_equal_seq_len]; exact h4⟩
    · split
      · have ha := model_total_model_count_equal mdl ret
          (query.drop lastM.pos_Q) lastM.length
        exact ⟨by omega, by rw [model_count_equal_seq_len]; exact h4⟩
      · exact ⟨by omega, h4⟩

/-- C7: for every subject ESA `C` (with a well-formed length and a cache
whose entries are either empty or bounded by the cache depth, as
`esa_init` produces), every model, query `Q` and threshold, the mutation
matrix returned by `dist_anchor` satisfies `Σ counts ≤ seq_len` with
`seq_len = |Q|`: no query position contributes more than one count in
total across anchors, bridges and the termination tallies. -/
theorem C7_dist_anchor_total_le (mdl : EvoModel) (C : Esa)
    (query : List Char) (qlen threshold : ℕ)
    (hlen : C.len ≤ 0 ∨ 2 ≤ C.len) (hc : cacheBounded C) :
    model_total (dist_anchor mdl C query qlen threshold) ≤ qlen ∧
    (dist_anchor mdl C query qlen threshold).seq_len = qlen := by
  have h0 : model_total ⟨fun _ => 0, qlen⟩ = 0 := by
    simp [model_total]
  have hinv := daLoop_invariant mdl C query qlen threshold hlen hc
    ⟨0, 0, 0⟩ ⟨0, 0, 0⟩ false ⟨fun _ => 0, qlen⟩
    (by simp [model_total]) (by simp) (by simp) rfl
  simp only [dist_anchor]
  exact daFinal_bounds mdl query qlen threshold _ _ _ hinv.1 hinv.2.1 hinv.2.2

/-- Closed instance of the bound: a concrete empty subject ESA and the
query ACGT. -/
theorem C7_dist_anchor_total_le_witness :
    model_total (dist_anchor M_JC ⟨[], [], [], [], [], [], 0⟩
      (String.toList "ACGT") 4 1) ≤ 4 ∧
    (dist_anchor M_JC ⟨[], [], [], [], [], [], 0⟩
      (String.toList "ACGT") 4 1).seq_len = 4 :=
  C7_dist_anchor_total_le M_JC ⟨[], [], [], [], [], [], 0⟩
    (String.toList "ACGT") 4 1 (Or.inl (by decide))
    (fun E hE => absurd hE (List.not_mem_nil E))

end Andi
